import Mathlib

/-!
Verification development for the `serde-bser` crate: a codec between
structured values and the BSER binary format used by Watchman.

The embedding models bytes as `Nat` (values < 256 on well-formed wires) and
byte streams as `List Nat`.  The crate is instantiated at `NativeEndian`
byte order; we model the host as a 64-bit little-endian platform, matching
the concrete byte sequences given in the crate's own test-suite.

Sources embedded here:
  * `src/lib.rs`   — the `Tag` enumeration;
  * `src/error.rs` — the `Error` enumeration (diagnostic payloads dropped:
    only the error kind is relevant to any property below);
  * `src/ser.rs`   — `Serializer::{serialize_int, serialize_u64,
    serialize_usize, serialize_bytes, ...}`, `to_vec`;
  * `src/de.rs`    — `Deserializer::{peek_tag, read_tag, read_usize,
    read_bytes, deserialize_any, deserialize_option, end}`, the
    `SeqAccess`/`MapAccess`/`TemplatedAccess`/`TemplatedMapAccess` loops,
    `from_slice`, `from_reader`.
-/

namespace Bser

/-- `Tag` from src/lib.rs: the thirteen single-byte type discriminators. -/
inductive Tag where
  | array | object | string | int8 | int16 | int32 | int64
  | real | btrue | bfalse | null | templated | missing
  deriving DecidableEq, Repr

/-- Numeric value of each tag (the `#[repr(u8)]` discriminants 0x00–0x0c). -/
def Tag.toByte : Tag → Nat
  | .array => 0x00 | .object => 0x01 | .string => 0x02
  | .int8 => 0x03 | .int16 => 0x04 | .int32 => 0x05 | .int64 => 0x06
  | .real => 0x07 | .btrue => 0x08 | .bfalse => 0x09
  | .null => 0x0a | .templated => 0x0b | .missing => 0x0c

/-- `Error` from src/error.rs.  `io` stands for `Error::Io(_)` (any wrapped
I/O error, e.g. `UnexpectedEof` on short reads or `WriteZero` from
`write_all`); `message` stands for `Error::Message(_)`, the catch-all
produced by `de::Error::custom` / `invalid_type` / `invalid_value`
(diagnostic strings dropped).  `fuelOut` is a model artifact: the decoder is
given recursion fuel and reports `fuelOut` on exhaustion; every theorem
below supplies enough fuel that it never occurs. -/
inductive Err where
  | io | message | utf8
  | trailingBytes | integerOverflow | lengthRequired | nonStringKey | malformedTag
  | fuelOut
  deriving DecidableEq, Repr

/-- `Result<T>` from src/error.rs. -/
abbrev BResult (α : Type) := Except Err α

deriving instance DecidableEq for Except

/-! ## Little-endian byte helpers

`byteorder`'s `write_i{8,16,32,64}` / `read_i{8,16,32,64}` with
`NativeEndian` on a little-endian host: two's-complement, least significant
byte first. -/

/-- `w` little-endian bytes of `n` (mod 2^(8w)). -/
def natToLE : Nat → Nat → List Nat
  | 0, _ => []
  | w + 1, n => (n % 256) :: natToLE w (n / 256)

/-- Recompose a little-endian byte list into a natural number. -/
def leToNat : List Nat → Nat
  | [] => 0
  | b :: bs => b + 256 * leToNat bs

/-- Two's-complement encoding of `i` in `w` little-endian bytes. -/
def intToLE (w : Nat) (i : Int) : List Nat :=
  natToLE w (i % ((2 : Int) ^ (8 * w))).toNat

/-- Interpret an unsigned `w`-byte value as a signed two's-complement
integer (what `read_i8`/`read_i16`/... deliver). -/
def leSigned (w : Nat) (n : Nat) : Int :=
  if n < 2 ^ (8 * w - 1) then (n : Int) else (n : Int) - 2 ^ (8 * w)

/-! ## Encoder: integer paths (src/ser.rs) -/

/-- `Serializer::serialize_int` (src/ser.rs lines 53–69): promote to `i64`
and emit the smallest of Int8/Int16/Int32/Int64 whose range contains the
value, tag byte first, then the little-endian two's-complement payload. -/
def serialize_int (v : Int) : List Nat :=
  if -128 ≤ v ∧ v ≤ 127 then
    Tag.int8.toByte :: intToLE 1 v
  else if -32768 ≤ v ∧ v ≤ 32767 then
    Tag.int16.toByte :: intToLE 2 v
  else if -(2 ^ 31) ≤ v ∧ v ≤ 2 ^ 31 - 1 then
    Tag.int32.toByte :: intToLE 4 v
  else
    Tag.int64.toByte :: intToLE 8 v

/-- `Serializer::serialize_u64` (src/ser.rs lines 144–150): values above
`i64::MAX` fail with `IntegerOverflow`; the rest take the signed path. -/
def serialize_u64 (v : Nat) : BResult (List Nat) :=
  if 2 ^ 63 - 1 < v then .error .integerOverflow
  else .ok (serialize_int (v : Int))

/-- `Serializer::serialize_usize` (src/ser.rs lines 47–50): delegates to
`serialize_u64` (the model platform is 64-bit, so `usize == u64`). -/
def serialize_usize (v : Nat) : BResult (List Nat) :=
  serialize_u64 v

/-! ## Decoder: byte-level readers (src/de.rs) -/

/-- Tag decoding table inside `Deserializer::peek_tag` (src/de.rs lines
79–102): bytes 0x00–0x0c map to tags, everything else is `MalformedTag`. -/
def parse_tag (b : Nat) : BResult Tag :=
  match b with
  | 0x00 => .ok .array
  | 0x01 => .ok .object
  | 0x02 => .ok .string
  | 0x03 => .ok .int8
  | 0x04 => .ok .int16
  | 0x05 => .ok .int32
  | 0x06 => .ok .int64
  | 0x07 => .ok .real
  | 0x08 => .ok .btrue
  | 0x09 => .ok .bfalse
  | 0x0a => .ok .null
  | 0x0b => .ok .templated
  | 0x0c => .ok .missing
  | _ => .error .malformedTag

/-- `Deserializer::peek_tag`: read a tag without consuming it (the cached
one-byte pushback slot is modelled by simply not consuming input here).
At end of input `read_u8` surfaces an I/O error (`UnexpectedEof`). -/
def peek_tag : List Nat → BResult Tag
  | [] => .error .io
  | b :: _ => parse_tag b

/-- `Deserializer::read_tag`: read and consume one tag byte. -/
def read_tag : List Nat → BResult (Tag × List Nat)
  | [] => .error .io
  | b :: rest => do
    let t ← parse_tag b
    .ok (t, rest)

/-- `Read::read_ref` (src/de.rs `SliceRead::read_ref`, lines 956–970):
take the next `n` bytes, or fail with an I/O error (`UnexpectedEof`) when
fewer remain.  (`IoRead::read_ref` copies into the scratch buffer instead
of borrowing; either way the same `n` bytes are delivered.) -/
def read_ref (n : Nat) (bs : List Nat) : BResult (List Nat × List Nat) :=
  if n ≤ bs.length then .ok (bs.take n, bs.drop n)
  else .error .io

/-- Read a `w`-byte little-endian signed integer payload
(`byteorder`'s `read_i8` / `read_i16` / `read_i32` / `read_i64`). -/
def read_signed (w : Nat) (bs : List Nat) : BResult (Int × List Nat) := do
  let (p, rest) ← read_ref w bs
  .ok (leSigned w (leToNat p), rest)

/-- `Deserializer::read_usize` (src/de.rs lines 145–149): lengths are
deserialized as `usize`, i.e. serde's `usize` impl drives
`deserialize_u64 = deserialize_prim_number`.  The primitive visitor for
`usize` converts each signed width via `int_to_uint`: negative values (or
values above `usize::MAX`, impossible for `i64` on the 64-bit model
platform) produce `invalid_value`, which reaches `de::Error::custom` and
becomes `Error::Message`.  A `Real` payload hits the visitor's missing
`visit_f64` (`invalid_type` → `Message`); any non-number tag goes through
`bad_tag` (`invalid_type` → `Message`; its diagnostic payload reads are
not modelled as the error kind is already determined). -/
def read_usize (bs : List Nat) : BResult (Nat × List Nat) := do
  let (t, bs) ← read_tag bs
  match t with
  | .int8 => do
    let (i, rest) ← read_signed 1 bs
    if i < 0 then .error .message else .ok (i.toNat, rest)
  | .int16 => do
    let (i, rest) ← read_signed 2 bs
    if i < 0 then .error .message else .ok (i.toNat, rest)
  | .int32 => do
    let (i, rest) ← read_signed 4 bs
    if i < 0 then .error .message else .ok (i.toNat, rest)
  | .int64 => do
    let (i, rest) ← read_signed 8 bs
    if i < 0 then .error .message else .ok (i.toNat, rest)
  | .real => .error .message
  | _ => .error .message

/-- `Deserializer::read_bytes` (src/de.rs lines 151–154): a length followed
by that many raw bytes. -/
def read_bytes (bs : List Nat) : BResult (List Nat × List Nat) := do
  let (n, bs) ← read_usize bs
  read_ref n bs

/-! ## The value domain

A self-describing BSER value: the domain the round-trip claim quantifies
over (booleans, signed 64-bit integers, IEEE-754 doubles, byte strings,
ordered sequences, string-keyed maps, null).  Doubles are modelled by their
64-bit pattern: `write_f64`/`read_f64` move exactly those eight bytes.
`VList`/`OList` are the sequence and map-entry spines (a mutual inductive
keeps the induction principles straightforwardly usable). -/

mutual
inductive Value where
  | vbool (b : Bool)
  | vint (i : Int)
  | vreal (bits : Nat)
  | vbytes (s : List Nat)
  | vnull
  | varray (xs : VList)
  | vobject (kvs : OList)
  deriving DecidableEq

inductive VList where
  | nil
  | cons (hd : Value) (tl : VList)
  deriving DecidableEq

inductive OList where
  | onil
  | ocons (key : List Nat) (hd : Value) (tl : OList)
  deriving DecidableEq
end

/-- Number of elements of a `VList` (the length serde reports for it). -/
def vlen : VList → Nat
  | .nil => 0
  | .cons _ tl => vlen tl + 1

/-- Number of entries of an `OList`. -/
def olen : OList → Nat
  | .onil => 0
  | .ocons _ _ tl => olen tl + 1

mutual
/-- Structural size of a value: an upper bound on the recursion depth the
decoder needs (used only to supply fuel in theorems). -/
def sizeV : Value → Nat
  | .varray xs => 1 + sizeVL xs
  | .vobject kvs => 1 + sizeOL kvs
  | _ => 1

def sizeVL : VList → Nat
  | .nil => 1
  | .cons v tl => 1 + max (sizeV v) (sizeVL tl)

def sizeOL : OList → Nat
  | .onil => 1
  | .ocons _ v tl => 1 + max (sizeV v) (sizeOL tl)
end

mutual
/-- The supported domain of claim C1: integers within `i64`, real bit
patterns within 64 bits, byte values below 256, and every sequence/map/key
length representable in the length prefix (nonnegative `i64`). -/
def wfV : Value → Bool
  | .vbool _ => true
  | .vnull => true
  | .vint i => decide (-(2 ^ 63) ≤ i ∧ i < 2 ^ 63)
  | .vreal bits => decide (bits < 2 ^ 64)
  | .vbytes s => decide (s.length ≤ 2 ^ 63 - 1) && s.all (· < 256)
  | .varray xs => decide (vlen xs ≤ 2 ^ 63 - 1) && wfVL xs
  | .vobject kvs => decide (olen kvs ≤ 2 ^ 63 - 1) && wfOL kvs

def wfVL : VList → Bool
  | .nil => true
  | .cons v tl => wfV v && wfVL tl

def wfOL : OList → Bool
  | .onil => true
  | .ocons k v tl =>
    (decide (k.length ≤ 2 ^ 63 - 1) && k.all (· < 256)) && wfV v && wfOL tl
end

/-! ## Encoder (src/ser.rs)

`value.serialize(&mut ser)` for a self-describing value walks the
serializer's typed entry points:
  * bool → `serialize_bool` (tag only);
  * integer → `serialize_i64` → `serialize_int`;
  * double → `serialize_f64` (Real tag + 8 payload bytes);
  * byte string → `serialize_bytes` (String tag + length + raw bytes);
  * null → `serialize_unit` (Null tag);
  * sequence → `serialize_seq(Some(len))` = `begin_array` + elements;
  * map → `serialize_map(Some(len))` = `begin_object` + entries, each key
    passed through `MapKeySerializer` which for a byte-string key is
    `serialize_bytes` again.
The encoder never emits the Templated tag. -/

mutual
def encV : Value → BResult (List Nat)
  | .vbool true => .ok [Tag.btrue.toByte]
  | .vbool false => .ok [Tag.bfalse.toByte]
  | .vint i => .ok (serialize_int i)
  | .vreal bits => .ok (Tag.real.toByte :: natToLE 8 bits)
  | .vbytes s => do
    let lenBytes ← serialize_usize s.length
    .ok (Tag.string.toByte :: (lenBytes ++ s))
  | .vnull => .ok [Tag.null.toByte]
  | .varray xs => do
    let lenBytes ← serialize_usize (vlen xs)
    let body ← encVL xs
    .ok (Tag.array.toByte :: (lenBytes ++ body))
  | .vobject kvs => do
    let lenBytes ← serialize_usize (olen kvs)
    let body ← encOL kvs
    .ok (Tag.object.toByte :: (lenBytes ++ body))

def encVL : VList → BResult (List Nat)
  | .nil => .ok []
  | .cons v tl => do
    let h ← encV v
    let t ← encVL tl
    .ok (h ++ t)

def encOL : OList → BResult (List Nat)
  | .onil => .ok []
  | .ocons k v tl => do
    let klenBytes ← serialize_usize k.length
    let h ← encV v
    let t ← encOL tl
    .ok ((Tag.string.toByte :: (klenBytes ++ k)) ++ (h ++ t))
end

/-- `to_vec` (src/ser.rs lines 688–695): serialize one value into a fresh
byte vector (a `Vec` sink never short-writes, so the emitted bytes are
exactly the serializer's writes). -/
def to_vec (v : Value) : BResult (List Nat) :=
  encV v

/-! ## Decoder (src/de.rs)

`deserialize_any` driven by a self-describing value visitor.  The functions
take explicit recursion fuel (a model artifact: Rust's recursion is bounded
by the call stack); every theorem supplies enough fuel.  Each function
returns the decoded result together with the unconsumed remainder of the
input. -/

/-- Key-list loop of `Deserializer::scan_templated` (src/de.rs lines
187–198): `num_keys` times, expect a String tag (anything else is
`bad_tag` → `invalid_type` → `Message`) and read its bytes. -/
def read_template_keys : Nat → List Nat → BResult (List (List Nat) × List Nat)
  | 0, bs => .ok ([], bs)
  | k + 1, bs => do
    let (t, bs) ← read_tag bs
    if t = Tag.string then do
      let (key, bs) ← read_bytes bs
      let (keys, bs) ← read_template_keys k bs
      .ok (key :: keys, bs)
    else .error .message

mutual
/-- `deserialize_any` (src/de.rs lines 258–277): read a tag and dispatch.
A standalone Missing tag is `bad_tag(Missing, "any value")` →
`invalid_type` → `Message`. -/
def deserialize_any : Nat → List Nat → BResult (Value × List Nat)
  | 0, _ => .error .fuelOut
  | f + 1, bs => do
    let (t, bs) ← read_tag bs
    match t with
    | .array => do
      let (n, bs) ← read_usize bs
      let (xs, bs) ← seq_elements f n bs
      .ok (.varray xs, bs)
    | .object => do
      let (n, bs) ← read_usize bs
      let (kvs, bs) ← map_entries f n bs
      .ok (.vobject kvs, bs)
    | .string => do
      let (s, bs) ← read_bytes bs
      .ok (.vbytes s, bs)
    | .int8 => do
      let (i, bs) ← read_signed 1 bs
      .ok (.vint i, bs)
    | .int16 => do
      let (i, bs) ← read_signed 2 bs
      .ok (.vint i, bs)
    | .int32 => do
      let (i, bs) ← read_signed 4 bs
      .ok (.vint i, bs)
    | .int64 => do
      let (i, bs) ← read_signed 8 bs
      .ok (.vint i, bs)
    | .real => do
      let (p, bs) ← read_ref 8 bs
      .ok (.vreal (leToNat p), bs)
    | .btrue => .ok (.vbool true, bs)
    | .bfalse => .ok (.vbool false, bs)
    | .null => .ok (.vnull, bs)
    | .templated => scan_templated f bs
    | .missing => .error .message

/-- `SeqAccess::next_element_seed` loop (src/de.rs lines 496–518): decode
exactly `remaining` child values. -/
def seq_elements : Nat → Nat → List Nat → BResult (VList × List Nat)
  | 0, _, _ => .error .fuelOut
  | _ + 1, 0, bs => .ok (.nil, bs)
  | f + 1, n + 1, bs => do
    let (v, bs) ← deserialize_any f bs
    let (tl, bs) ← seq_elements f n bs
    .ok (.cons v tl, bs)

/-- `MapAccess` loop (src/de.rs lines 527–559): `remaining` times, expect a
String tag for the key (else `bad_tag` → `Message`), read the key bytes,
then decode the entry's value. -/
def map_entries : Nat → Nat → List Nat → BResult (OList × List Nat)
  | 0, _, _ => .error .fuelOut
  | _ + 1, 0, bs => .ok (.onil, bs)
  | f + 1, n + 1, bs => do
    let (t, bs) ← read_tag bs
    if t = Tag.string then do
      let (k, bs) ← read_bytes bs
      let (v, bs) ← deserialize_any f bs
      let (tl, bs) ← map_entries f n bs
      .ok (.ocons k v tl, bs)
    else .error .message

/-- `Deserializer::scan_templated` (src/de.rs lines 180–207), after the
Templated tag has been consumed: expect the Array tag (else `bad_tag` →
`Message`), read the key count and the keys, read the row count, and
deliver the rows as a sequence. -/
def scan_templated : Nat → List Nat → BResult (Value × List Nat)
  | 0, _ => .error .fuelOut
  | f + 1, bs => do
    let (t, bs) ← read_tag bs
    if t = Tag.array then do
      let (numKeys, bs) ← read_usize bs
      let (keys, bs) ← read_template_keys numKeys bs
      let (n, bs) ← read_usize bs
      let (rows, bs) ← templated_rows f keys n bs
      .ok (.varray rows, bs)
    else .error .message

/-- `TemplatedAccess::next_element_seed` loop (src/de.rs lines 742–764):
decode `remaining` rows, each delivered as a map. -/
def templated_rows : Nat → List (List Nat) → Nat → List Nat → BResult (VList × List Nat)
  | 0, _, _, _ => .error .fuelOut
  | _ + 1, _, 0, bs => .ok (.nil, bs)
  | f + 1, keys, n + 1, bs => do
    let (kvs, bs) ← templated_row f keys bs
    let (rows, bs) ← templated_rows f keys n bs
    .ok (.cons (.vobject kvs) rows, bs)

/-- `TemplatedMapAccess::next_key_seed` / `next_value_seed` (src/de.rs
lines 821–851): iterate over the captured keys; peek the next tag; a
Missing tag is consumed and the key is skipped (no map entry); otherwise
the key is emitted and the cell value decoded normally. -/
def templated_row : Nat → List (List Nat) → List Nat → BResult (OList × List Nat)
  | 0, _, _ => .error .fuelOut
  | _ + 1, [], bs => .ok (.onil, bs)
  | f + 1, k :: ks, bs => do
    let t ← peek_tag bs
    if t = Tag.missing then
      templated_row f ks (bs.drop 1)
    else do
      let (v, bs) ← deserialize_any f bs
      let (kvs, bs) ← templated_row f ks bs
      .ok (.ocons k v kvs, bs)
end

/-- `Deserializer::end` (src/de.rs lines 71–76): succeed only when the
pushback slot is empty (always true after a completed top-level value,
which is how the model reaches it) and the source has no next byte. -/
def de_end (rest : List Nat) : BResult Unit :=
  match rest with
  | [] => .ok ()
  | _ => .error .trailingBytes

/-- `from_slice` (src/de.rs lines 1007–1015): deserialize one top-level
value from a byte slice, then check for trailing bytes. -/
def from_slice (fuel : Nat) (bs : List Nat) : BResult Value := do
  let (v, rest) ← deserialize_any fuel bs
  let _ ← de_end rest
  .ok v

/-- `from_reader` (src/de.rs lines 995–1004): identical pipeline over the
streaming source (`IoRead`); an in-memory reader delivers the same byte
sequence, with `read_ref` copying into scratch instead of borrowing, so
the value-level behaviour coincides with `from_slice`. -/
def from_reader (fuel : Nat) (bs : List Nat) : BResult Value := do
  let (v, rest) ← deserialize_any fuel bs
  let _ ← de_end rest
  .ok v

/-- `deserialize_option` (src/de.rs lines 345–355): peek at the next tag; a
Null tag is consumed (`self.tag = None`) and delivered as `none`; any other
tag leaves the input untouched and decodes the inner value normally
(`visit_some`, here with a self-describing inner type). -/
def deserialize_option (fuel : Nat) (bs : List Nat) : BResult (Option Value × List Nat) := do
  let t ← peek_tag bs
  if t = Tag.null then .ok (none, bs.drop 1)
  else do
    let (v, rest) ← deserialize_any fuel bs
    .ok (some v, rest)

/-! ## serde-side wrappers on the encoder (src/ser.rs)

The reflection framework can hand the serializer a value wrapped in
`Option` layers or newtype structs; the corresponding `Serializer` entry
points are `serialize_some` / `serialize_none` (lines 229–240) and
`serialize_newtype_struct` (lines 203–210). -/

inductive Wrapped where
  | plain (v : Value)
  | newtypeStruct (name : String) (inner : Wrapped)
  | someOf (inner : Wrapped)
  | noneW
  deriving DecidableEq

/-- Encoding of a possibly wrapped value: `serialize_newtype_struct`
ignores the name and runs `value.serialize(self)`; `serialize_some`
likewise delegates to the inner value; `serialize_none` is
`serialize_unit`, i.e. the bare Null tag. -/
def encW : Wrapped → BResult (List Nat)
  | .plain v => encV v
  | .newtypeStruct _ inner => encW inner
  | .someOf inner => encW inner
  | .noneW => .ok [Tag.null.toByte]

/-! ## Output sink model (claim C5)

`Serializer<W>` is generic over `W: io::Write`.  `io::Write::write` may
accept fewer bytes than offered (a short write) and reports the accepted
count; `write_all` (used by `byteorder`'s `write_u8`/`write_i*`/`write_f64`
helpers) loops until the buffer is exhausted, failing with a `WriteZero`
I/O error if the sink accepts nothing.  `WState` models a sink that
accepts at most `cap` bytes per `write` call and records the bytes it
accepted. -/

structure WState where
  written : List Nat
  cap : Nat
  deriving DecidableEq, Repr

/-- `io::Write::write` on the modelled sink: accept up to `cap` bytes,
report how many were accepted.  (Never an `Err`: a short write is reported
through the count, which is exactly what makes dropping it dangerous.) -/
def wwrite (s : WState) (buf : List Nat) : Nat × WState :=
  let n := min buf.length s.cap
  (n, ⟨s.written ++ buf.take n, s.cap⟩)

/-- `io::Write::write_all`: loop `write` until the buffer is drained;
a sink accepting zero bytes is a `WriteZero` I/O error. -/
def write_all (s : WState) (buf : List Nat) : BResult WState :=
  if h : buf = [] then .ok s
  else
    match wwrite s buf with
    | (n, s') =>
      if h0 : n = 0 then .error .io
      else write_all s' (buf.drop n)
termination_by buf.length
decreasing_by
  have hb : buf.length ≠ 0 := fun hc => h (List.eq_nil_of_length_eq_zero hc)
  simp only [List.length_drop]
  omega

/-- `write_tag` / `byteorder::write_u8`: a single byte through `write_all`. -/
def write_u8_w (s : WState) (b : Nat) : BResult WState :=
  write_all s [b]

/-- `serialize_int` against a sink: the tag byte via `write_u8` and the
payload via `byteorder`'s `write_i8`/`write_i16`/`write_i32`/`write_i64`,
all of which use `write_all` internally. -/
def serialize_int_w (s : WState) (v : Int) : BResult WState := do
  if -128 ≤ v ∧ v ≤ 127 then do
    let s ← write_u8_w s Tag.int8.toByte
    write_all s (intToLE 1 v)
  else if -32768 ≤ v ∧ v ≤ 32767 then do
    let s ← write_u8_w s Tag.int16.toByte
    write_all s (intToLE 2 v)
  else if -(2 ^ 31) ≤ v ∧ v ≤ 2 ^ 31 - 1 then do
    let s ← write_u8_w s Tag.int32.toByte
    write_all s (intToLE 4 v)
  else do
    let s ← write_u8_w s Tag.int64.toByte
    write_all s (intToLE 8 v)

/-- `serialize_usize` against a sink (via `serialize_u64`). -/
def serialize_usize_w (s : WState) (v : Nat) : BResult WState :=
  if 2 ^ 63 - 1 < v then .error .integerOverflow
  else serialize_int_w s (v : Int)

/-- `Serializer::serialize_bytes` (src/ser.rs lines 176–181) against a
sink: String tag (`write_tag`), the length (`serialize_usize`), then the
payload via a single bare `io::Write::write` call — `self.writer.write(v)?`
— whose accepted-byte count is discarded; only an `Err` return would
propagate, and the modelled sink never returns `Err`. -/
def serialize_bytes_w (s : WState) (v : List Nat) : BResult WState := do
  let s ← write_u8_w s Tag.string.toByte
  let s ← serialize_usize_w s v.length
  let r := wwrite s v
  .ok r.2

/-! # Basic lemmas about the monadic plumbing and the byte readers -/

@[simp] theorem natToLE_length (w n : Nat) : (natToLE w n).length = w := by
  induction w generalizing n with
  | zero => rfl
  | succ w ih => simp [natToLE, ih]

@[simp] theorem intToLE_length (w : Nat) (i : Int) : (intToLE w i).length = w := by
  simp [intToLE]

theorem leToNat_natToLE (w n : Nat) : leToNat (natToLE w n) = n % 2 ^ (8 * w) := by
  induction w generalizing n with
  | zero => simp [natToLE, leToNat, Nat.mod_one]
  | succ w ih =>
    have hK : (0 : Nat) < 2 ^ (8 * w) := Nat.pow_pos (by norm_num)
    have hpow : (2 : Nat) ^ (8 * (w + 1)) = 256 * 2 ^ (8 * w) := by
      rw [show 8 * (w + 1) = 8 * w + 8 by ring, pow_add]
      norm_num [Nat.mul_comm]
    simp only [natToLE, leToNat, ih]
    set K := 2 ^ (8 * w) with hKdef
    have hdecomp : n = 256 * K * (n / 256 / K) + (256 * (n / 256 % K) + n % 256) := by
      calc n = 256 * (n / 256) + n % 256 := (Nat.div_add_mod n 256).symm
        _ = 256 * (K * (n / 256 / K) + n / 256 % K) + n % 256 := by
              rw [Nat.div_add_mod (n / 256) K]
        _ = 256 * K * (n / 256 / K) + (256 * (n / 256 % K) + n % 256) := by ring
    have hlt : 256 * (n / 256 % K) + n % 256 < 256 * K := by
      have h1 : n % 256 < 256 := Nat.mod_lt _ (by norm_num)
      have h2 : n / 256 % K < K := Nat.mod_lt _ hK
      omega
    rw [hpow]
    conv_rhs => rw [hdecomp]
    rw [Nat.mul_add_mod, Nat.mod_eq_of_lt hlt]
    omega

/-- Two's-complement round trip: writing `i` as `w` little-endian bytes and
reading them back as a signed integer restores `i`, for `i` in range. -/
theorem leSigned_intToLE (w : Nat) (hw : 0 < w) (i : Int)
    (h1 : -(2 ^ (8 * w - 1)) ≤ i) (h2 : i < 2 ^ (8 * w - 1)) :
    leSigned w (leToNat (intToLE w i)) = i := by
  have hsplit : 8 * w = (8 * w - 1) + 1 := by omega
  have hdouble : (2 : Int) ^ (8 * w) = 2 * 2 ^ (8 * w - 1) := by
    conv_lhs => rw [hsplit]
    rw [pow_succ]; ring
  have hpos : (0 : Int) < 2 ^ (8 * w) := by positivity
  have hm : (0 : Int) ≤ i % 2 ^ (8 * w) := Int.emod_nonneg i (by positivity)
  have hmlt : i % 2 ^ (8 * w) < 2 ^ (8 * w) := Int.emod_lt_of_pos i hpos
  have hcase : i % 2 ^ (8 * w) = i ∨ i % 2 ^ (8 * w) = i + 2 ^ (8 * w) := by
    rcases le_or_lt 0 i with hge | hlt
    · left
      exact Int.emod_eq_of_lt hge (lt_trans h2 (by omega))
    · right
      have hshift : (i + 2 ^ (8 * w)) % 2 ^ (8 * w) = i % 2 ^ (8 * w) := by
        simpa using Int.add_mul_emod_self_left (a := i) (b := 2 ^ (8 * w)) (c := 1)
      rw [← hshift]
      exact Int.emod_eq_of_lt (by omega) (by omega)
  unfold intToLE
  rw [leToNat_natToLE]
  have hcastP : ((2 ^ (8 * w) : Nat) : Int) = 2 ^ (8 * w) := by push_cast; rfl
  have hlt' : (i % 2 ^ (8 * w)).toNat < 2 ^ (8 * w) := by omega
  rw [Nat.mod_eq_of_lt hlt']
  have hcast : ((i % 2 ^ (8 * w)).toNat : Int) = i % 2 ^ (8 * w) :=
    Int.toNat_of_nonneg hm
  unfold leSigned
  split
  · next hbr =>
    have hbr' : ((i % 2 ^ (8 * w)).toNat : Int) < 2 ^ (8 * w - 1) := by
      exact_mod_cast hbr
    omega
  · next hbr =>
    have hbr' : ¬ ((i % 2 ^ (8 * w)).toNat : Int) < 2 ^ (8 * w - 1) := by
      intro hc
      exact hbr (by exact_mod_cast hc)
    push_cast
    omega

@[simp] theorem ok_bind {α β : Type} (a : α) (g : α → BResult β) :
    (Except.ok a >>= g : BResult β) = g a := rfl

@[simp] theorem err_bind {α β : Type} (e : Err) (g : α → BResult β) :
    ((Except.error e : BResult α) >>= g) = .error e := rfl

@[simp] theorem parse_tag_toByte (t : Tag) : parse_tag t.toByte = .ok t := by
  cases t <;> rfl

@[simp] theorem read_tag_cons (t : Tag) (rest : List Nat) :
    read_tag (Tag.toByte t :: rest) = .ok (t, rest) := by
  cases t <;> rfl

/-- Bytes 0x0d and above hit the catch-all arm of `peek_tag`'s table. -/
theorem parse_tag_malformed (b : Nat) (h : 13 ≤ b) :
    parse_tag b = .error .malformedTag := by
  unfold parse_tag
  split <;> first | rfl | omega

/-- A byte that parses as a tag is at most 0x0c. -/
theorem parse_tag_ok_le (b : Nat) (t : Tag) (h : parse_tag b = .ok t) : b ≤ 12 := by
  unfold parse_tag at h
  split at h <;> first | omega | simp_all

/-- A byte that parses as a non-Missing tag is at most 0x0b. -/
theorem parse_tag_ok_le_of_ne_missing (b : Nat) (t : Tag) (h : parse_tag b = .ok t)
    (ht : t ≠ Tag.missing) : b ≤ 11 := by
  unfold parse_tag at h
  split at h <;> first | omega | simp_all

theorem read_ref_exact {n : Nat} {pre rest : List Nat} (h : pre.length = n) :
    read_ref n (pre ++ rest) = .ok (pre, rest) := by
  subst h
  unfold read_ref
  rw [if_pos (by simp), List.take_left, List.drop_left]

theorem read_signed_intToLE {w : Nat} (hw : 0 < w) (i : Int)
    (h1 : -(2 ^ (8 * w - 1)) ≤ i) (h2 : i < 2 ^ (8 * w - 1)) (rest : List Nat) :
    read_signed w (intToLE w i ++ rest) = .ok (i, rest) := by
  unfold read_signed
  rw [read_ref_exact (intToLE_length w i)]
  simp [leSigned_intToLE w hw i h1 h2]

theorem serialize_usize_ok (n : Nat) (h : n ≤ 2 ^ 63 - 1) :
    serialize_usize n = .ok (serialize_int (n : Int)) := by
  unfold serialize_usize serialize_u64
  rw [if_neg (by omega)]

/-- Decoding a length that was emitted by `serialize_int` restores it. -/
theorem read_usize_serialize_int (n : Nat) (h : n ≤ 2 ^ 63 - 1) (rest : List Nat) :
    read_usize (serialize_int (n : Int) ++ rest) = .ok (n, rest) := by
  have hn0 : (0 : Int) ≤ (n : Int) := Int.natCast_nonneg n
  unfold serialize_int
  split_ifs with h8 h16 h32 <;>
    simp only [List.cons_append, read_usize, read_tag_cons, ok_bind]
  · rw [read_signed_intToLE (by norm_num) _ (by norm_num; omega) (by norm_num; omega)]
    simp [Int.not_lt.mpr hn0]
  · rw [read_signed_intToLE (by norm_num) _ (by norm_num; omega) (by norm_num; omega)]
    simp [Int.not_lt.mpr hn0]
  · rw [read_signed_intToLE (by norm_num) _ (by norm_num; omega) (by norm_num; omega)]
    simp [Int.not_lt.mpr hn0]
  · have hb : (n : Int) < 2 ^ 63 := by
      have : ((2 : Nat) ^ 63 - 1 : Nat) < (2 : Nat) ^ 63 := by norm_num
      omega
    rw [read_signed_intToLE (by norm_num) _ (by norm_num; omega) (by norm_num; omega)]
    simp [Int.not_lt.mpr hn0]

/-- Decoding an integer that was emitted by `serialize_int` restores it. -/
theorem deserialize_any_serialize_int (i : Int) (h1 : -(2 ^ 63) ≤ i) (h2 : i < 2 ^ 63)
    (f : Nat) (rest : List Nat) :
    deserialize_any (f + 1) (serialize_int i ++ rest) = .ok (.vint i, rest) := by
  unfold serialize_int
  split_ifs with h8 h16 h32 <;>
    simp only [List.cons_append, deserialize_any, read_tag_cons, ok_bind]
  · rw [read_signed_intToLE (by norm_num) _ (by norm_num; omega) (by norm_num; omega)]; rfl
  · rw [read_signed_intToLE (by norm_num) _ (by norm_num; omega) (by norm_num; omega)]; rfl
  · rw [read_signed_intToLE (by norm_num) _ (by norm_num; omega) (by norm_num; omega)]; rfl
  · rw [read_signed_intToLE (by norm_num) _ (by norm_num; omega) (by norm_num; omega)]; rfl

/-! # The round trip (claim C1) -/

/-- Joint encode/decode round trip for values, sequence spines and map
spines, by induction on the decoder's fuel. -/
theorem roundtrip_fuel (f : Nat) :
    (∀ v : Value, wfV v = true → sizeV v ≤ f → ∀ rest : List Nat,
      ∃ bs, encV v = .ok bs ∧ deserialize_any f (bs ++ rest) = .ok (v, rest)) ∧
    (∀ xs : VList, wfVL xs = true → sizeVL xs ≤ f → ∀ rest : List Nat,
      ∃ bs, encVL xs = .ok bs ∧ seq_elements f (vlen xs) (bs ++ rest) = .ok (xs, rest)) ∧
    (∀ kvs : OList, wfOL kvs = true → sizeOL kvs ≤ f → ∀ rest : List Nat,
      ∃ bs, encOL kvs = .ok bs ∧ map_entries f (olen kvs) (bs ++ rest) = .ok (kvs, rest)) := by
  induction f with
  | zero =>
    refine ⟨?_, ?_, ?_⟩
    · intro v _ hsz
      exact absurd hsz (by cases v <;> simp [sizeV])
    · intro xs _ hsz
      exact absurd hsz (by cases xs <;> simp [sizeVL])
    · intro kvs _ hsz
      exact absurd hsz (by cases kvs <;> simp [sizeOL])
  | succ f ih =>
    obtain ⟨ihV, ihL, ihO⟩ := ih
    refine ⟨?_, ?_, ?_⟩
    · intro v hwf hsz rest
      cases v with
      | vbool b =>
        cases b
        · exact ⟨_, rfl, by simp [deserialize_any]⟩
        · exact ⟨_, rfl, by simp [deserialize_any]⟩
      | vint i =>
        simp only [wfV, decide_eq_true_eq] at hwf
        exact ⟨_, rfl, deserialize_any_serialize_int i hwf.1 hwf.2 f rest⟩
      | vreal bits =>
        simp only [wfV, decide_eq_true_eq] at hwf
        refine ⟨_, rfl, ?_⟩
        simp only [deserialize_any, List.cons_append, read_tag_cons, ok_bind]
        rw [read_ref_exact (natToLE_length 8 bits)]
        simp only [ok_bind, leToNat_natToLE]
        rw [Nat.mod_eq_of_lt (show bits < 2 ^ (8 * 8) by norm_num at hwf ⊢; exact hwf)]
      | vbytes s =>
        simp only [wfV, Bool.and_eq_true, decide_eq_true_eq] at hwf
        refine ⟨Tag.string.toByte :: (serialize_int (s.length : Int) ++ s), ?_, ?_⟩
        · simp [encV, serialize_usize_ok s.length hwf.1]
        · simp only [deserialize_any, List.cons_append, read_tag_cons, ok_bind]
          unfold read_bytes
          rw [List.append_assoc, read_usize_serialize_int s.length hwf.1]
          simp only [ok_bind]
          rw [read_ref_exact rfl]
          rfl
      | vnull => exact ⟨_, rfl, by simp [deserialize_any]⟩
      | varray xs =>
        simp only [wfV, Bool.and_eq_true, decide_eq_true_eq] at hwf
        have hszl : sizeVL xs ≤ f := by
          simp only [sizeV] at hsz; omega
        obtain ⟨bsl, hencl, hdecl⟩ := ihL xs hwf.2 hszl rest
        refine ⟨Tag.array.toByte :: (serialize_int (vlen xs : Int) ++ bsl), ?_, ?_⟩
        · simp [encV, serialize_usize_ok (vlen xs) hwf.1, hencl]
        · simp only [deserialize_any, List.cons_append, read_tag_cons, ok_bind]
          rw [List.append_assoc, read_usize_serialize_int (vlen xs) hwf.1]
          simp only [ok_bind]
          rw [hdecl]
          rfl
      | vobject kvs =>
        simp only [wfV, Bool.and_eq_true, decide_eq_true_eq] at hwf
        have hszl : sizeOL kvs ≤ f := by
          simp only [sizeV] at hsz; omega
        obtain ⟨bsl, hencl, hdecl⟩ := ihO kvs hwf.2 hszl rest
        refine ⟨Tag.object.toByte :: (serialize_int (olen kvs : Int) ++ bsl), ?_, ?_⟩
        · simp [encV, serialize_usize_ok (olen kvs) hwf.1, hencl]
        · simp only [deserialize_any, List.cons_append, read_tag_cons, ok_bind]
          rw [List.append_assoc, read_usize_serialize_int (olen kvs) hwf.1]
          simp only [ok_bind]
          rw [hdecl]
          rfl
    · intro xs hwf hsz rest
      cases xs with
      | nil => exact ⟨[], rfl, by simp [seq_elements, vlen]⟩
      | cons v tl =>
        simp only [wfVL, Bool.and_eq_true] at hwf
        have h1 : sizeV v ≤ f := by
          simp only [sizeVL] at hsz; omega
        have h2 : sizeVL tl ≤ f := by
          simp only [sizeVL] at hsz; omega
        obtain ⟨bstl, henct, hdect⟩ := ihL tl hwf.2 h2 rest
        obtain ⟨bsv, hencv, hdecv⟩ := ihV v hwf.1 h1 (bstl ++ rest)
        refine ⟨bsv ++ bstl, ?_, ?_⟩
        · simp [encVL, hencv, henct]
        · show seq_elements (f + 1) (vlen (.cons v tl)) ((bsv ++ bstl) ++ rest) = _
          simp only [vlen, seq_elements, List.append_assoc, hdecv, ok_bind, hdect]
    · intro kvs hwf hsz rest
      cases kvs with
      | onil => exact ⟨[], rfl, by simp [map_entries, olen]⟩
      | ocons k v tl =>
        simp only [wfOL, Bool.and_eq_true, decide_eq_true_eq] at hwf
        obtain ⟨⟨⟨hkl, _⟩, hwv⟩, hwtl⟩ := hwf
        have h1 : sizeV v ≤ f := by
          simp only [sizeOL] at hsz; omega
        have h2 : sizeOL tl ≤ f := by
          simp only [sizeOL] at hsz; omega
        obtain ⟨bstl, henct, hdect⟩ := ihO tl hwtl h2 rest
        obtain ⟨bsv, hencv, hdecv⟩ := ihV v hwv h1 (bstl ++ rest)
        refine ⟨(Tag.string.toByte :: (serialize_int (k.length : Int) ++ k)) ++ (bsv ++ bstl),
          ?_, ?_⟩
        · simp [encOL, serialize_usize_ok k.length hkl, hencv, henct]
        · show map_entries (f + 1) (olen (.ocons k v tl)) _ = _
          simp only [olen, map_entries, List.cons_append, List.append_assoc, read_tag_cons,
            ok_bind, if_pos]
          unfold read_bytes
          rw [read_usize_serialize_int k.length hkl]
          simp only [ok_bind]
          rw [read_ref_exact rfl]
          simp only [ok_bind, hdecv, hdect]

/-- C1: for every value in the supported domain, `from_slice` applied to
the byte vector produced by `to_vec` succeeds and returns the same value
(doubles are compared as their 64-bit patterns, which is exactly what the
wire carries; `fuel` bounds the decoder's recursion depth and any
`fuel ≥ sizeV v` works). -/
theorem roundtrip_to_vec_from_slice (v : Value) (hwf : wfV v = true) :
    ∃ bs, to_vec v = .ok bs ∧ ∀ f, sizeV v ≤ f → from_slice f bs = .ok v := by
  obtain ⟨bs, henc, _⟩ := (roundtrip_fuel (sizeV v)).1 v hwf le_rfl []
  refine ⟨bs, henc, ?_⟩
  intro f hf
  obtain ⟨bs', henc', hdec'⟩ := (roundtrip_fuel f).1 v hwf hf []
  have hbs : bs' = bs := by
    rw [henc] at henc'
    exact (Except.ok.injEq _ _).mp henc'.symm
  subst hbs
  have hdec2 : deserialize_any f bs' = .ok (v, []) := by
    simpa using hdec'
  unfold from_slice
  rw [hdec2]
  rfl

/-! # Parsing is unaffected by bytes appended after the consumed input -/

theorem peek_tag_extend {bs : List Nat} {t : Tag} (e : List Nat)
    (h : peek_tag bs = .ok t) : peek_tag (bs ++ e) = .ok t := by
  cases bs with
  | nil => simp [peek_tag] at h
  | cons b tl => simpa [peek_tag] using h

theorem read_tag_extend {bs : List Nat} {t : Tag} {rest : List Nat} (e : List Nat)
    (h : read_tag bs = .ok (t, rest)) : read_tag (bs ++ e) = .ok (t, rest ++ e) := by
  cases bs with
  | nil => simp [read_tag] at h
  | cons b tl =>
    cases hp : parse_tag b with
    | error er => simp [read_tag, hp] at h
    | ok t' =>
      simp only [read_tag, hp, ok_bind, Except.ok.injEq, Prod.mk.injEq] at h
      obtain ⟨ht, hr⟩ := h
      subst ht; subst hr
      simp [read_tag, List.cons_append, hp]

theorem read_ref_extend {n : Nat} {bs p rest : List Nat} (e : List Nat)
    (h : read_ref n bs = .ok (p, rest)) : read_ref n (bs ++ e) = .ok (p, rest ++ e) := by
  unfold read_ref at h ⊢
  split at h
  · next hle =>
    simp only [Except.ok.injEq, Prod.mk.injEq] at h
    obtain ⟨hp, hr⟩ := h
    subst hp; subst hr
    rw [if_pos (by simp only [List.length_append]; omega)]
    rw [List.take_append_of_le_length hle, List.drop_append_of_le_length hle]
  · simp at h

theorem read_signed_extend {w : Nat} {bs : List Nat} {i : Int} {rest : List Nat} (e : List Nat)
    (h : read_signed w bs = .ok (i, rest)) : read_signed w (bs ++ e) = .ok (i, rest ++ e) := by
  unfold read_signed at h ⊢
  cases hr : read_ref w bs with
  | error er => rw [hr] at h; simp at h
  | ok p =>
    obtain ⟨payload, rest'⟩ := p
    rw [hr] at h
    simp only [ok_bind, Except.ok.injEq, Prod.mk.injEq] at h
    obtain ⟨hi, hrest⟩ := h
    subst hi; subst hrest
    rw [read_ref_extend e hr]
    rfl

/-- The single-width arm of `read_usize`, extended by appended bytes. -/
theorem usize_arm_extend (w : Nat) (bs1 : List Nat) {n : Nat} {rest : List Nat} (e : List Nat)
    (h : (do
      let (i, r) ← read_signed w bs1
      if i < 0 then (.error .message : BResult (Nat × List Nat))
      else .ok (i.toNat, r)) = .ok (n, rest)) :
    (do
      let (i, r) ← read_signed w (bs1 ++ e)
      if i < 0 then (.error .message : BResult (Nat × List Nat))
      else .ok (i.toNat, r)) = .ok (n, rest ++ e) := by
  cases hs : read_signed w bs1 with
  | error er => rw [hs] at h; simp at h
  | ok q =>
    obtain ⟨i, r⟩ := q
    rw [hs] at h
    rw [read_signed_extend e hs]
    simp only [ok_bind] at h ⊢
    by_cases hi : i < 0
    · rw [if_pos hi] at h; simp at h
    · rw [if_neg hi] at h ⊢
      simp only [Except.ok.injEq, Prod.mk.injEq] at h
      obtain ⟨h1, h2⟩ := h
      subst h1; subst h2
      rfl

theorem read_usize_extend {bs : List Nat} {n : Nat} {rest : List Nat} (e : List Nat)
    (h : read_usize bs = .ok (n, rest)) : read_usize (bs ++ e) = .ok (n, rest ++ e) := by
  unfold read_usize at h ⊢
  cases hrt : read_tag bs with
  | error er => rw [hrt] at h; simp at h
  | ok p =>
    obtain ⟨t, bs1⟩ := p
    rw [hrt] at h
    rw [read_tag_extend e hrt]
    simp only [ok_bind] at h ⊢
    cases t <;> first
      | (simp at h; done)
      | exact usize_arm_extend _ bs1 e h

theorem read_bytes_extend {bs s rest : List Nat} (e : List Nat)
    (h : read_bytes bs = .ok (s, rest)) : read_bytes (bs ++ e) = .ok (s, rest ++ e) := by
  unfold read_bytes at h ⊢
  cases hu : read_usize bs with
  | error er => rw [hu] at h; simp at h
  | ok p =>
    obtain ⟨n, bs1⟩ := p
    rw [hu] at h
    rw [read_usize_extend e hu]
    simp only [ok_bind] at h ⊢
    exact read_ref_extend e h

theorem read_template_keys_extend :
    ∀ (k : Nat) {bs : List Nat} {keys : List (List Nat)} {rest : List Nat} (e : List Nat),
      read_template_keys k bs = .ok (keys, rest) →
      read_template_keys k (bs ++ e) = .ok (keys, rest ++ e) := by
  intro k
  induction k with
  | zero =>
    intro bs keys rest e h
    simp only [read_template_keys, Except.ok.injEq, Prod.mk.injEq] at h ⊢
    obtain ⟨h1, h2⟩ := h
    subst h1; subst h2
    exact ⟨rfl, rfl⟩
  | succ k ih =>
    intro bs keys rest e h
    simp only [read_template_keys] at h ⊢
    cases hrt : read_tag bs with
    | error er => rw [hrt] at h; simp at h
    | ok p =>
      obtain ⟨t, bs1⟩ := p
      rw [hrt] at h
      rw [read_tag_extend e hrt]
      simp only [ok_bind] at h ⊢
      by_cases ht : t = Tag.string
      · rw [if_pos ht] at h ⊢
        cases hb : read_bytes bs1 with
        | error er => rw [hb] at h; simp at h
        | ok q =>
          obtain ⟨key, bs2⟩ := q
          rw [hb] at h
          rw [read_bytes_extend e hb]
          simp only [ok_bind] at h ⊢
          cases hk : read_template_keys k bs2 with
          | error er => rw [hk] at h; simp at h
          | ok r =>
            obtain ⟨keys', bs3⟩ := r
            rw [hk] at h
            rw [ih e hk]
            simp only [ok_bind, Except.ok.injEq, Prod.mk.injEq] at h ⊢
            obtain ⟨h1, h2⟩ := h
            subst h1; subst h2
            exact ⟨rfl, rfl⟩
      · rw [if_neg ht] at h; simp at h

/-- The single-width integer arm of `deserialize_any`, extended by appended
bytes. -/
theorem int_arm_extend (w : Nat) (bs1 : List Nat) {v : Value} {rest : List Nat} (e : List Nat)
    (h : (do
      let (i, r) ← read_signed w bs1
      (.ok (Value.vint i, r) : BResult (Value × List Nat))) = .ok (v, rest)) :
    (do
      let (i, r) ← read_signed w (bs1 ++ e)
      (.ok (Value.vint i, r) : BResult (Value × List Nat))) = .ok (v, rest ++ e) := by
  cases hs : read_signed w bs1 with
  | error er => rw [hs] at h; simp at h
  | ok q =>
    obtain ⟨i, r⟩ := q
    rw [hs] at h
    rw [read_signed_extend e hs]
    simp only [ok_bind, Except.ok.injEq, Prod.mk.injEq] at h ⊢
    obtain ⟨h1, h2⟩ := h
    subst h1; subst h2
    exact ⟨rfl, rfl⟩

/-- Appending bytes after the input never changes what the decoder produces
or how much it consumes: the leftover is extended by exactly the appended
bytes.  Proved for all five mutually recursive decoding loops at once, by
induction on the fuel. -/
theorem decode_extend (f : Nat) :
    (∀ (bs : List Nat) (v : Value) (rest e : List Nat),
      deserialize_any f bs = .ok (v, rest) →
      deserialize_any f (bs ++ e) = .ok (v, rest ++ e)) ∧
    (∀ (n : Nat) (bs : List Nat) (xs : VList) (rest e : List Nat),
      seq_elements f n bs = .ok (xs, rest) →
      seq_elements f n (bs ++ e) = .ok (xs, rest ++ e)) ∧
    (∀ (n : Nat) (bs : List Nat) (kvs : OList) (rest e : List Nat),
      map_entries f n bs = .ok (kvs, rest) →
      map_entries f n (bs ++ e) = .ok (kvs, rest ++ e)) ∧
    (∀ (bs : List Nat) (v : Value) (rest e : List Nat),
      scan_templated f bs = .ok (v, rest) →
      scan_templated f (bs ++ e) = .ok (v, rest ++ e)) ∧
    (∀ (keys : List (List Nat)) (n : Nat) (bs : List Nat) (xs : VList) (rest e : List Nat),
      templated_rows f keys n bs = .ok (xs, rest) →
      templated_rows f keys n (bs ++ e) = .ok (xs, rest ++ e)) ∧
    (∀ (keys : List (List Nat)) (bs : List Nat) (kvs : OList) (rest e : List Nat),
      templated_row f keys bs = .ok (kvs, rest) →
      templated_row f keys (bs ++ e) = .ok (kvs, rest ++ e)) := by
  induction f with
  | zero =>
    refine ⟨?_, ?_, ?_, ?_, ?_, ?_⟩
    · intro bs v rest e h; simp [deserialize_any] at h
    · intro n bs xs rest e h; simp [seq_elements] at h
    · intro n bs kvs rest e h; simp [map_entries] at h
    · intro bs v rest e h; simp [scan_templated] at h
    · intro keys n bs xs rest e h; simp [templated_rows] at h
    · intro keys bs kvs rest e h; simp [templated_row] at h
  | succ f ih =>
    obtain ⟨ihA, ihL, ihO, ihT, ihR, ihW⟩ := ih
    refine ⟨?_, ?_, ?_, ?_, ?_, ?_⟩
    · -- deserialize_any
      intro bs v rest e h
      simp only [deserialize_any] at h ⊢
      cases hrt : read_tag bs with
      | error er => rw [hrt] at h; simp at h
      | ok p =>
        obtain ⟨t, bs1⟩ := p
        rw [hrt] at h
        rw [read_tag_extend e hrt]
        simp only [ok_bind] at h ⊢
        cases t with
        | array =>
          cases hu : read_usize bs1 with
          | error er => rw [hu] at h; simp at h
          | ok q =>
            obtain ⟨n, bs2⟩ := q
            rw [hu] at h
            rw [read_usize_extend e hu]
            simp only [ok_bind] at h ⊢
            cases hs : seq_elements f n bs2 with
            | error er => rw [hs] at h; simp at h
            | ok r =>
              obtain ⟨xs, bs3⟩ := r
              rw [hs] at h
              rw [ihL n bs2 xs bs3 e hs]
              simp only [ok_bind, Except.ok.injEq, Prod.mk.injEq] at h ⊢
              obtain ⟨h1, h2⟩ := h
              subst h1; subst h2
              exact ⟨rfl, rfl⟩
        | object =>
          cases hu : read_usize bs1 with
          | error er => rw [hu] at h; simp at h
          | ok q =>
            obtain ⟨n, bs2⟩ := q
            rw [hu] at h
            rw [read_usize_extend e hu]
            simp only [ok_bind] at h ⊢
            cases hs : map_entries f n bs2 with
            | error er => rw [hs] at h; simp at h
            | ok r =>
              obtain ⟨kvs, bs3⟩ := r
              rw [hs] at h
              rw [ihO n bs2 kvs bs3 e hs]
              simp only [ok_bind, Except.ok.injEq, Prod.mk.injEq] at h ⊢
              obtain ⟨h1, h2⟩ := h
              subst h1; subst h2
              exact ⟨rfl, rfl⟩
        | string =>
          cases hb : read_bytes bs1 with
          | error er => rw [hb] at h; simp at h
          | ok q =>
            obtain ⟨s, bs2⟩ := q
            rw [hb] at h
            rw [read_bytes_extend e hb]
            simp only [ok_bind, Except.ok.injEq, Prod.mk.injEq] at h ⊢
            obtain ⟨h1, h2⟩ := h
            subst h1; subst h2
            exact ⟨rfl, rfl⟩
        | int8 => exact int_arm_extend 1 bs1 e h
        | int16 => exact int_arm_extend 2 bs1 e h
        | int32 => exact int_arm_extend 4 bs1 e h
        | int64 => exact int_arm_extend 8 bs1 e h
        | real =>
          cases hr : read_ref 8 bs1 with
          | error er => rw [hr] at h; simp at h
          | ok q =>
            obtain ⟨payload, bs2⟩ := q
            rw [hr] at h
            rw [read_ref_extend e hr]
            simp only [ok_bind, Except.ok.injEq, Prod.mk.injEq] at h ⊢
            obtain ⟨h1, h2⟩ := h
            subst h1; subst h2
            exact ⟨rfl, rfl⟩
        | btrue =>
          simp only [Except.ok.injEq, Prod.mk.injEq] at h ⊢
          obtain ⟨h1, h2⟩ := h
          subst h1; subst h2
          exact ⟨rfl, rfl⟩
        | bfalse =>
          simp only [Except.ok.injEq, Prod.mk.injEq] at h ⊢
          obtain ⟨h1, h2⟩ := h
          subst h1; subst h2
          exact ⟨rfl, rfl⟩
        | null =>
          simp only [Except.ok.injEq, Prod.mk.injEq] at h ⊢
          obtain ⟨h1, h2⟩ := h
          subst h1; subst h2
          exact ⟨rfl, rfl⟩
        | templated => exact ihT bs1 v rest e h
        | missing => simp at h
    · -- seq_elements
      intro n bs xs rest e h
      cases n with
      | zero =>
        simp only [seq_elements, Except.ok.injEq, Prod.mk.injEq] at h ⊢
        obtain ⟨h1, h2⟩ := h
        subst h1; subst h2
        exact ⟨rfl, rfl⟩
      | succ n =>
        simp only [seq_elements] at h ⊢
        cases ha : deserialize_any f bs with
        | error er => rw [ha] at h; simp at h
        | ok q =>
          obtain ⟨v, bs1⟩ := q
          rw [ha] at h
          rw [ihA bs v bs1 e ha]
          simp only [ok_bind] at h ⊢
          cases hs : seq_elements f n bs1 with
          | error er => rw [hs] at h; simp at h
          | ok r =>
            obtain ⟨tl, bs2⟩ := r
            rw [hs] at h
            rw [ihL n bs1 tl bs2 e hs]
            simp only [ok_bind, Except.ok.injEq, Prod.mk.injEq] at h ⊢
            obtain ⟨h1, h2⟩ := h
            subst h1; subst h2
            exact ⟨rfl, rfl⟩
    · -- map_entries
      intro n bs kvs rest e h
      cases n with
      | zero =>
        simp only [map_entries, Except.ok.injEq, Prod.mk.injEq] at h ⊢
        obtain ⟨h1, h2⟩ := h
        subst h1; subst h2
        exact ⟨rfl, rfl⟩
      | succ n =>
        simp only [map_entries] at h ⊢
        cases hrt : read_tag bs with
        | error er => rw [hrt] at h; simp at h
        | ok p =>
          obtain ⟨t, bs1⟩ := p
          rw [hrt] at h
          rw [read_tag_extend e hrt]
          simp only [ok_bind] at h ⊢
          by_cases ht : t = Tag.string
          · rw [if_pos ht] at h ⊢
            cases hb : read_bytes bs1 with
            | error er => rw [hb] at h; simp at h
            | ok q =>
              obtain ⟨k, bs2⟩ := q
              rw [hb] at h
              rw [read_bytes_extend e hb]
              simp only [ok_bind] at h ⊢
              cases ha : deserialize_any f bs2 with
              | error er => rw [ha] at h; simp at h
              | ok r =>
                obtain ⟨v, bs3⟩ := r
                rw [ha] at h
                rw [ihA bs2 v bs3 e ha]
                simp only [ok_bind] at h ⊢
                cases hm : map_entries f n bs3 with
                | error er => rw [hm] at h; simp at h
                | ok s =>
                  obtain ⟨tl, bs4⟩ := s
                  rw [hm] at h
                  rw [ihO n bs3 tl bs4 e hm]
                  simp only [ok_bind, Except.ok.injEq, Prod.mk.injEq] at h ⊢
                  obtain ⟨h1, h2⟩ := h
                  subst h1; subst h2
                  exact ⟨rfl, rfl⟩
          · rw [if_neg ht] at h; simp at h
    · -- scan_templated
      intro bs v rest e h
      simp only [scan_templated] at h ⊢
      cases hrt : read_tag bs with
      | error er => rw [hrt] at h; simp at h
      | ok p =>
        obtain ⟨t, bs1⟩ := p
        rw [hrt] at h
        rw [read_tag_extend e hrt]
        simp only [ok_bind] at h ⊢
        by_cases ht : t = Tag.array
        · rw [if_pos ht] at h ⊢
          cases hu : read_usize bs1 with
          | error er => rw [hu] at h; simp at h
          | ok q =>
            obtain ⟨numKeys, bs2⟩ := q
            rw [hu] at h
            rw [read_usize_extend e hu]
            simp only [ok_bind] at h ⊢
            cases hk : read_template_keys numKeys bs2 with
            | error er => rw [hk] at h; simp at h
            | ok r =>
              obtain ⟨keys, bs3⟩ := r
              rw [hk] at h
              rw [read_template_keys_extend numKeys e hk]
              simp only [ok_bind] at h ⊢
              cases hn : read_usize bs3 with
              | error er => rw [hn] at h; simp at h
              | ok s =>
                obtain ⟨n, bs4⟩ := s
                rw [hn] at h
                rw [read_usize_extend e hn]
                simp only [ok_bind] at h ⊢
                cases hw : templated_rows f keys n bs4 with
                | error er => rw [hw] at h; simp at h
                | ok u =>
                  obtain ⟨rows, bs5⟩ := u
                  rw [hw] at h
                  rw [ihR keys n bs4 rows bs5 e hw]
                  simp only [ok_bind, Except.ok.injEq, Prod.mk.injEq] at h ⊢
                  obtain ⟨h1, h2⟩ := h
                  subst h1; subst h2
                  exact ⟨rfl, rfl⟩
        · rw [if_neg ht] at h; simp at h
    · -- templated_rows
      intro keys n bs xs rest e h
      cases n with
      | zero =>
        simp only [templated_rows, Except.ok.injEq, Prod.mk.injEq] at h ⊢
        obtain ⟨h1, h2⟩ := h
        subst h1; subst h2
        exact ⟨rfl, rfl⟩
      | succ n =>
        simp only [templated_rows] at h ⊢
        cases hw : templated_row f keys bs with
        | error er => rw [hw] at h; simp at h
        | ok q =>
          obtain ⟨kvs, bs1⟩ := q
          rw [hw] at h
          rw [ihW keys bs kvs bs1 e hw]
          simp only [ok_bind] at h ⊢
          cases hr : templated_rows f keys n bs1 with
          | error er => rw [hr] at h; simp at h
          | ok r =>
            obtain ⟨rows, bs2⟩ := r
            rw [hr] at h
            rw [ihR keys n bs1 rows bs2 e hr]
            simp only [ok_bind, Except.ok.injEq, Prod.mk.injEq] at h ⊢
            obtain ⟨h1, h2⟩ := h
            subst h1; subst h2
            exact ⟨rfl, rfl⟩
    · -- templated_row
      intro keys bs kvs rest e h
      cases keys with
      | nil =>
        simp only [templated_row, Except.ok.injEq, Prod.mk.injEq] at h ⊢
        obtain ⟨h1, h2⟩ := h
        subst h1; subst h2
        exact ⟨rfl, rfl⟩
      | cons k ks =>
        simp only [templated_row] at h ⊢
        cases bs with
        | nil => simp [peek_tag] at h
        | cons b tl =>
          cases hp : parse_tag b with
          | error er => simp [peek_tag, hp] at h
          | ok t =>
            have hpeek : peek_tag (b :: tl) = .ok t := by simp [peek_tag, hp]
            have hpeek' : peek_tag ((b :: tl) ++ e) = .ok t := by
              simp [peek_tag, List.cons_append, hp]
            rw [hpeek] at h
            rw [List.cons_append]
            rw [show peek_tag (b :: (tl ++ e)) = .ok t from hpeek']
            simp only [ok_bind] at h ⊢
            by_cases ht : t = Tag.missing
            · rw [if_pos ht] at h ⊢
              simpa using ihW ks tl kvs rest e (by simpa using h)
            · rw [if_neg ht] at h ⊢
              cases ha : deserialize_any f (b :: tl) with
              | error er => rw [ha] at h; simp at h
              | ok q =>
                obtain ⟨v, bs1⟩ := q
                rw [ha] at h
                have ha' := ihA (b :: tl) v bs1 e ha
                rw [List.cons_append] at ha'
                rw [ha']
                simp only [ok_bind] at h ⊢
                cases hw : templated_row f ks bs1 with
                | error er => rw [hw] at h; simp at h
                | ok r =>
                  obtain ⟨kvs', bs2⟩ := r
                  rw [hw] at h
                  rw [ihW ks bs1 kvs' bs2 e hw]
                  simp only [ok_bind, Except.ok.injEq, Prod.mk.injEq] at h ⊢
                  obtain ⟨h1, h2⟩ := h
                  subst h1; subst h2
                  exact ⟨rfl, rfl⟩

/-! # Consumption structure of the decoder (for claim C3) -/

theorem parse_tag_ok_missing (b : Nat) (h : parse_tag b = .ok Tag.missing) : b = 12 := by
  unfold parse_tag at h
  split at h <;> first | omega | simp_all

theorem read_tag_consumes {bs : List Nat} {t : Tag} {rest : List Nat}
    (h : read_tag bs = .ok (t, rest)) : ∃ b, bs = b :: rest ∧ parse_tag b = .ok t := by
  cases bs with
  | nil => simp [read_tag] at h
  | cons b tl =>
    cases hp : parse_tag b with
    | error er => simp [read_tag, hp] at h
    | ok t' =>
      simp only [read_tag, hp, ok_bind, Except.ok.injEq, Prod.mk.injEq] at h
      obtain ⟨h1, h2⟩ := h
      subst h1; subst h2
      exact ⟨b, rfl, hp⟩

theorem read_ref_consumes {n : Nat} {bs p rest : List Nat}
    (h : read_ref n bs = .ok (p, rest)) : bs = p ++ rest := by
  unfold read_ref at h
  split at h
  · simp only [Except.ok.injEq, Prod.mk.injEq] at h
    obtain ⟨h1, h2⟩ := h
    subst h1; subst h2
    exact (List.take_append_drop n bs).symm
  · simp at h

theorem read_signed_consumes {w : Nat} {bs : List Nat} {i : Int} {rest : List Nat}
    (h : read_signed w bs = .ok (i, rest)) : ∃ pre, bs = pre ++ rest := by
  unfold read_signed at h
  cases hr : read_ref w bs with
  | error er => rw [hr] at h; simp at h
  | ok q =>
    obtain ⟨payload, rest'⟩ := q
    rw [hr] at h
    simp only [ok_bind, Except.ok.injEq, Prod.mk.injEq] at h
    obtain ⟨_, h2⟩ := h
    subst h2
    exact ⟨payload, read_ref_consumes hr⟩

theorem read_usize_consumes {bs : List Nat} {n : Nat} {rest : List Nat}
    (h : read_usize bs = .ok (n, rest)) : ∃ pre, bs = pre ++ rest := by
  unfold read_usize at h
  cases hrt : read_tag bs with
  | error er => rw [hrt] at h; simp at h
  | ok p =>
    obtain ⟨t, bs1⟩ := p
    rw [hrt] at h
    simp only [ok_bind] at h
    obtain ⟨b, hbs, _⟩ := read_tag_consumes hrt
    subst hbs
    have harm : ∀ w, (do
        let (i, r) ← read_signed w bs1
        if i < 0 then (.error .message : BResult (Nat × List Nat))
        else .ok (i.toNat, r)) = .ok (n, rest) → ∃ pre, bs1 = pre ++ rest := by
      intro w harm
      cases hs : read_signed w bs1 with
      | error er => rw [hs] at harm; simp at harm
      | ok q =>
        obtain ⟨i, r⟩ := q
        rw [hs] at harm
        simp only [ok_bind] at harm
        by_cases hi : i < 0
        · rw [if_pos hi] at harm; simp at harm
        · rw [if_neg hi] at harm
          simp only [Except.ok.injEq, Prod.mk.injEq] at harm
          obtain ⟨_, h2⟩ := harm
          subst h2
          exact read_signed_consumes hs
    cases t <;> first
      | (simp at h; done)
      | (obtain ⟨pre, hpre⟩ := harm _ h
         exact ⟨b :: pre, by rw [hpre]; rfl⟩)

theorem read_bytes_consumes {bs s rest : List Nat}
    (h : read_bytes bs = .ok (s, rest)) : ∃ pre, bs = pre ++ rest := by
  unfold read_bytes at h
  cases hu : read_usize bs with
  | error er => rw [hu] at h; simp at h
  | ok p =>
    obtain ⟨n, bs1⟩ := p
    rw [hu] at h
    simp only [ok_bind] at h
    obtain ⟨pre1, hpre1⟩ := read_usize_consumes hu
    have hb := read_ref_consumes h
    exact ⟨pre1 ++ s, by rw [hpre1, hb, List.append_assoc]⟩

theorem read_template_keys_consumes :
    ∀ (k : Nat) {bs : List Nat} {keys : List (List Nat)} {rest : List Nat},
      read_template_keys k bs = .ok (keys, rest) → ∃ pre, bs = pre ++ rest := by
  intro k
  induction k with
  | zero =>
    intro bs keys rest h
    simp only [read_template_keys, Except.ok.injEq, Prod.mk.injEq] at h
    exact ⟨[], by rw [← h.2]; rfl⟩
  | succ k ih =>
    intro bs keys rest h
    simp only [read_template_keys] at h
    cases hrt : read_tag bs with
    | error er => rw [hrt] at h; simp at h
    | ok p =>
      obtain ⟨t, bs1⟩ := p
      rw [hrt] at h
      simp only [ok_bind] at h
      by_cases ht : t = Tag.string
      · rw [if_pos ht] at h
        cases hb : read_bytes bs1 with
        | error er => rw [hb] at h; simp at h
        | ok q =>
          obtain ⟨key, bs2⟩ := q
          rw [hb] at h
          simp only [ok_bind] at h
          cases hk : read_template_keys k bs2 with
          | error er => rw [hk] at h; simp at h
          | ok r =>
            obtain ⟨keys', bs3⟩ := r
            rw [hk] at h
            simp only [ok_bind, Except.ok.injEq, Prod.mk.injEq] at h
            obtain ⟨_, h2⟩ := h
            subst h2
            obtain ⟨b, hbs, _⟩ := read_tag_consumes hrt
            obtain ⟨pre2, hpre2⟩ := read_bytes_consumes hb
            obtain ⟨pre3, hpre3⟩ := ih hk
            exact ⟨b :: (pre2 ++ pre3), by rw [hbs, hpre2, hpre3]; simp⟩
      · rw [if_neg ht] at h; simp at h

/-- How the decoder consumes its input, for all five loops at once: a
successfully decoded value occupies a nonempty prefix starting with a
non-Missing tag byte, and a templated row with `K` keys consumes exactly
`K` cells — one per key, a Missing cell being the single byte 0x0c and
contributing no map entry, every other cell a value contributing one. -/
theorem decode_consumes (f : Nat) :
    (∀ (bs : List Nat) (v : Value) (rest : List Nat),
      deserialize_any f bs = .ok (v, rest) →
      ∃ (b : Nat) (mid : List Nat), bs = (b :: mid) ++ rest ∧ b ≤ 11) ∧
    (∀ (n : Nat) (bs : List Nat) (xs : VList) (rest : List Nat),
      seq_elements f n bs = .ok (xs, rest) → ∃ pre, bs = pre ++ rest) ∧
    (∀ (n : Nat) (bs : List Nat) (kvs : OList) (rest : List Nat),
      map_entries f n bs = .ok (kvs, rest) → ∃ pre, bs = pre ++ rest) ∧
    (∀ (bs : List Nat) (v : Value) (rest : List Nat),
      scan_templated f bs = .ok (v, rest) → ∃ pre, bs = pre ++ rest) ∧
    (∀ (keys : List (List Nat)) (n : Nat) (bs : List Nat) (xs : VList) (rest : List Nat),
      templated_rows f keys n bs = .ok (xs, rest) → ∃ pre, bs = pre ++ rest) ∧
    (∀ (keys : List (List Nat)) (bs : List Nat) (kvs : OList) (rest : List Nat),
      templated_row f keys bs = .ok (kvs, rest) →
      ∃ cells : List (List Nat),
        cells.length = keys.length ∧
        bs = cells.flatten ++ rest ∧
        (∀ c ∈ cells, c ≠ []) ∧
        olen kvs = cells.countP (fun c => decide (c.head? ≠ some 12))) := by
  induction f with
  | zero =>
    refine ⟨?_, ?_, ?_, ?_, ?_, ?_⟩
    · intro bs v rest h; simp [deserialize_any] at h
    · intro n bs xs rest h; simp [seq_elements] at h
    · intro n bs kvs rest h; simp [map_entries] at h
    · intro bs v rest h; simp [scan_templated] at h
    · intro keys n bs xs rest h; simp [templated_rows] at h
    · intro keys bs kvs rest h; simp [templated_row] at h
  | succ f ih =>
    obtain ⟨ihA, ihL, ihO, ihT, ihR, ihW⟩ := ih
    have hA : ∀ (bs : List Nat) (v : Value) (rest : List Nat),
        deserialize_any (f + 1) bs = .ok (v, rest) →
        ∃ (b : Nat) (mid : List Nat), bs = (b :: mid) ++ rest ∧ b ≤ 11 := by
      intro bs v rest h
      simp only [deserialize_any] at h
      cases hrt : read_tag bs with
      | error er => rw [hrt] at h; simp at h
      | ok p =>
        obtain ⟨t, bs1⟩ := p
        rw [hrt] at h
        simp only [ok_bind] at h
        obtain ⟨b, hbs, hpb⟩ := read_tag_consumes hrt
        subst hbs
        have harm : ∀ w, (do
            let (i, r) ← read_signed w bs1
            (.ok (Value.vint i, r) : BResult (Value × List Nat))) = .ok (v, rest) →
            ∃ pre, bs1 = pre ++ rest := by
          intro w harm
          cases hs : read_signed w bs1 with
          | error er => rw [hs] at harm; simp at harm
          | ok q =>
            obtain ⟨i, r⟩ := q
            rw [hs] at harm
            simp only [ok_bind, Except.ok.injEq, Prod.mk.injEq] at harm
            obtain ⟨_, h2⟩ := harm
            subst h2
            exact read_signed_consumes hs
        cases t with
        | array =>
          have hb11 : b ≤ 11 := parse_tag_ok_le_of_ne_missing b _ hpb (by intro hc; cases hc)
          cases hu : read_usize bs1 with
          | error er => rw [hu] at h; simp at h
          | ok q =>
            obtain ⟨n, bs2⟩ := q
            rw [hu] at h
            simp only [ok_bind] at h
            cases hs : seq_elements f n bs2 with
            | error er => rw [hs] at h; simp at h
            | ok r =>
              obtain ⟨xs, bs3⟩ := r
              rw [hs] at h
              simp only [ok_bind, Except.ok.injEq, Prod.mk.injEq] at h
              obtain ⟨_, h2⟩ := h
              subst h2
              obtain ⟨pre1, hpre1⟩ := read_usize_consumes hu
              obtain ⟨pre2, hpre2⟩ := ihL n bs2 xs _ hs
              exact ⟨b, pre1 ++ pre2, by rw [hpre1, hpre2]; simp, hb11⟩
        | object =>
          have hb11 : b ≤ 11 := parse_tag_ok_le_of_ne_missing b _ hpb (by intro hc; cases hc)
          cases hu : read_usize bs1 with
          | error er => rw [hu] at h; simp at h
          | ok q =>
            obtain ⟨n, bs2⟩ := q
            rw [hu] at h
            simp only [ok_bind] at h
            cases hs : map_entries f n bs2 with
            | error er => rw [hs] at h; simp at h
            | ok r =>
              obtain ⟨kvs, bs3⟩ := r
              rw [hs] at h
              simp only [ok_bind, Except.ok.injEq, Prod.mk.injEq] at h
              obtain ⟨_, h2⟩ := h
              subst h2
              obtain ⟨pre1, hpre1⟩ := read_usize_consumes hu
              obtain ⟨pre2, hpre2⟩ := ihO n bs2 kvs _ hs
              exact ⟨b, pre1 ++ pre2, by rw [hpre1, hpre2]; simp, hb11⟩
        | string =>
          have hb11 : b ≤ 11 := parse_tag_ok_le_of_ne_missing b _ hpb (by intro hc; cases hc)
          cases hb : read_bytes bs1 with
          | error er => rw [hb] at h; simp at h
          | ok q =>
            obtain ⟨s, bs2⟩ := q
            rw [hb] at h
            simp only [ok_bind, Except.ok.injEq, Prod.mk.injEq] at h
            obtain ⟨_, h2⟩ := h
            subst h2
            obtain ⟨pre1, hpre1⟩ := read_bytes_consumes hb
            exact ⟨b, pre1, by simp [hpre1], hb11⟩
        | int8 =>
          obtain ⟨pre, hpre⟩ := harm 1 h
          exact ⟨b, pre, by simp [hpre],
            parse_tag_ok_le_of_ne_missing b _ hpb (by intro hc; cases hc)⟩
        | int16 =>
          obtain ⟨pre, hpre⟩ := harm 2 h
          exact ⟨b, pre, by simp [hpre],
            parse_tag_ok_le_of_ne_missing b _ hpb (by intro hc; cases hc)⟩
        | int32 =>
          obtain ⟨pre, hpre⟩ := harm 4 h
          exact ⟨b, pre, by simp [hpre],
            parse_tag_ok_le_of_ne_missing b _ hpb (by intro hc; cases hc)⟩
        | int64 =>
          obtain ⟨pre, hpre⟩ := harm 8 h
          exact ⟨b, pre, by simp [hpre],
            parse_tag_ok_le_of_ne_missing b _ hpb (by intro hc; cases hc)⟩
        | real =>
          have hb11 : b ≤ 11 := parse_tag_ok_le_of_ne_missing b _ hpb (by intro hc; cases hc)
          cases hr : read_ref 8 bs1 with
          | error er => rw [hr] at h; simp at h
          | ok q =>
            obtain ⟨payload, bs2⟩ := q
            rw [hr] at h
            simp only [ok_bind, Except.ok.injEq, Prod.mk.injEq] at h
            obtain ⟨_, h2⟩ := h
            subst h2
            exact ⟨b, payload, by simp [read_ref_consumes hr], hb11⟩
        | btrue =>
          simp only [Except.ok.injEq, Prod.mk.injEq] at h
          obtain ⟨_, h2⟩ := h
          subst h2
          exact ⟨b, [], rfl,
            parse_tag_ok_le_of_ne_missing b _ hpb (by intro hc; cases hc)⟩
        | bfalse =>
          simp only [Except.ok.injEq, Prod.mk.injEq] at h
          obtain ⟨_, h2⟩ := h
          subst h2
          exact ⟨b, [], rfl,
            parse_tag_ok_le_of_ne_missing b _ hpb (by intro hc; cases hc)⟩
        | null =>
          simp only [Except.ok.injEq, Prod.mk.injEq] at h
          obtain ⟨_, h2⟩ := h
          subst h2
          exact ⟨b, [], rfl,
            parse_tag_ok_le_of_ne_missing b _ hpb (by intro hc; cases hc)⟩
        | templated =>
          obtain ⟨pre, hpre⟩ := ihT bs1 v _ h
          exact ⟨b, pre, by simp [hpre],
            parse_tag_ok_le_of_ne_missing b _ hpb (by intro hc; cases hc)⟩
        | missing => simp at h
    refine ⟨hA, ?_, ?_, ?_, ?_, ?_⟩
    · intro n bs xs rest h
      cases n with
      | zero =>
        simp only [seq_elements, Except.ok.injEq, Prod.mk.injEq] at h
        exact ⟨[], by rw [← h.2]; rfl⟩
      | succ n =>
        simp only [seq_elements] at h
        cases ha : deserialize_any f bs with
        | error er => rw [ha] at h; simp at h
        | ok q =>
          obtain ⟨v, bs1⟩ := q
          rw [ha] at h
          simp only [ok_bind] at h
          cases hs : seq_elements f n bs1 with
          | error er => rw [hs] at h; simp at h
          | ok r =>
            obtain ⟨tl, bs2⟩ := r
            rw [hs] at h
            simp only [ok_bind, Except.ok.injEq, Prod.mk.injEq] at h
            obtain ⟨_, h2⟩ := h
            subst h2
            obtain ⟨b, mid, hpre1, _⟩ := ihA bs v bs1 ha
            obtain ⟨pre2, hpre2⟩ := ihL n bs1 tl _ hs
            exact ⟨(b :: mid) ++ pre2, by rw [hpre1, hpre2]; simp⟩
    · intro n bs kvs rest h
      cases n with
      | zero =>
        simp only [map_entries, Except.ok.injEq, Prod.mk.injEq] at h
        exact ⟨[], by rw [← h.2]; rfl⟩
      | succ n =>
        simp only [map_entries] at h
        cases hrt : read_tag bs with
        | error er => rw [hrt] at h; simp at h
        | ok p =>
          obtain ⟨t, bs1⟩ := p
          rw [hrt] at h
          simp only [ok_bind] at h
          by_cases ht : t = Tag.string
          · rw [if_pos ht] at h
            cases hb : read_bytes bs1 with
            | error er => rw [hb] at h; simp at h
            | ok q =>
              obtain ⟨k, bs2⟩ := q
              rw [hb] at h
              simp only [ok_bind] at h
              cases ha : deserialize_any f bs2 with
              | error er => rw [ha] at h; simp at h
              | ok r =>
                obtain ⟨v, bs3⟩ := r
                rw [ha] at h
                simp only [ok_bind] at h
                cases hm : map_entries f n bs3 with
                | error er => rw [hm] at h; simp at h
                | ok s =>
                  obtain ⟨tl, bs4⟩ := s
                  rw [hm] at h
                  simp only [ok_bind, Except.ok.injEq, Prod.mk.injEq] at h
                  obtain ⟨_, h2⟩ := h
                  subst h2
                  obtain ⟨b, hbs, _⟩ := read_tag_consumes hrt
                  obtain ⟨pre2, hpre2⟩ := read_bytes_consumes hb
                  obtain ⟨b3, mid3, hpre3, _⟩ := ihA bs2 v bs3 ha
                  obtain ⟨pre4, hpre4⟩ := ihO n bs3 tl _ hm
                  refine ⟨b :: (pre2 ++ ((b3 :: mid3) ++ pre4)), ?_⟩
                  rw [hbs, hpre2, hpre3, hpre4]
                  simp
          · rw [if_neg ht] at h; simp at h
    · intro bs v rest h
      simp only [scan_templated] at h
      cases hrt : read_tag bs with
      | error er => rw [hrt] at h; simp at h
      | ok p =>
        obtain ⟨t, bs1⟩ := p
        rw [hrt] at h
        simp only [ok_bind] at h
        by_cases ht : t = Tag.array
        · rw [if_pos ht] at h
          cases hu : read_usize bs1 with
          | error er => rw [hu] at h; simp at h
          | ok q =>
            obtain ⟨numKeys, bs2⟩ := q
            rw [hu] at h
            simp only [ok_bind] at h
            cases hk : read_template_keys numKeys bs2 with
            | error er => rw [hk] at h; simp at h
            | ok r =>
              obtain ⟨keys, bs3⟩ := r
              rw [hk] at h
              simp only [ok_bind] at h
              cases hn : read_usize bs3 with
              | error er => rw [hn] at h; simp at h
              | ok s =>
                obtain ⟨n, bs4⟩ := s
                rw [hn] at h
                simp only [ok_bind] at h
                cases hw : templated_rows f keys n bs4 with
                | error er => rw [hw] at h; simp at h
                | ok u =>
                  obtain ⟨rows, bs5⟩ := u
                  rw [hw] at h
                  simp only [ok_bind, Except.ok.injEq, Prod.mk.injEq] at h
                  obtain ⟨_, h2⟩ := h
                  subst h2
                  obtain ⟨b, hbs, _⟩ := read_tag_consumes hrt
                  obtain ⟨p1, hp1⟩ := read_usize_consumes hu
                  obtain ⟨p2, hp2⟩ := read_template_keys_consumes numKeys hk
                  obtain ⟨p3, hp3⟩ := read_usize_consumes hn
                  obtain ⟨p4, hp4⟩ := ihR keys n bs4 rows _ hw
                  refine ⟨b :: (p1 ++ (p2 ++ (p3 ++ p4))), ?_⟩
                  rw [hbs, hp1, hp2, hp3, hp4]
                  simp
        · rw [if_neg ht] at h; simp at h
    · intro keys n bs xs rest h
      cases n with
      | zero =>
        simp only [templated_rows, Except.ok.injEq, Prod.mk.injEq] at h
        exact ⟨[], by rw [← h.2]; rfl⟩
      | succ n =>
        simp only [templated_rows] at h
        cases hw : templated_row f keys bs with
        | error er => rw [hw] at h; simp at h
        | ok q =>
          obtain ⟨kvs, bs1⟩ := q
          rw [hw] at h
          simp only [ok_bind] at h
          cases hr : templated_rows f keys n bs1 with
          | error er => rw [hr] at h; simp at h
          | ok r =>
            obtain ⟨rows, bs2⟩ := r
            rw [hr] at h
            simp only [ok_bind, Except.ok.injEq, Prod.mk.injEq] at h
            obtain ⟨_, h2⟩ := h
            subst h2
            obtain ⟨cells, _, hjoin, _, _⟩ := ihW keys bs kvs bs1 hw
            obtain ⟨pre2, hpre2⟩ := ihR keys n bs1 rows _ hr
            exact ⟨cells.flatten ++ pre2, by rw [hjoin, hpre2]; simp⟩
    · intro keys bs kvs rest h
      cases keys with
      | nil =>
        simp only [templated_row, Except.ok.injEq, Prod.mk.injEq] at h
        obtain ⟨h1, h2⟩ := h
        subst h1; subst h2
        exact ⟨[], rfl, rfl, by simp, by simp [olen]⟩
      | cons k ks =>
        simp only [templated_row] at h
        cases bs with
        | nil => simp [peek_tag] at h
        | cons b tl =>
          cases hp : parse_tag b with
          | error er => simp [peek_tag, hp] at h
          | ok t =>
            have hpeek : peek_tag (b :: tl) = .ok t := by simp [peek_tag, hp]
            rw [hpeek] at h
            simp only [ok_bind] at h
            by_cases ht : t = Tag.missing
            · rw [if_pos ht] at h
              subst ht
              have hb12 : b = 12 := parse_tag_ok_missing b hp
              subst hb12
              have h' : templated_row f ks tl = .ok (kvs, rest) := by simpa using h
              obtain ⟨cells, hlen, hjoin, hne, hcount⟩ := ihW ks tl kvs rest h'
              refine ⟨[12] :: cells, by simp [hlen], ?_, ?_, ?_⟩
              · simp [hjoin]
              · intro c hc
                rcases List.mem_cons.mp hc with hc | hc
                · simp [hc]
                · exact hne c hc
              · rw [hcount]
                simp [List.countP_cons]
            · rw [if_neg ht] at h
              cases ha : deserialize_any f (b :: tl) with
              | error er => rw [ha] at h; simp at h
              | ok q =>
                obtain ⟨v, bs1⟩ := q
                rw [ha] at h
                simp only [ok_bind] at h
                cases hw : templated_row f ks bs1 with
                | error er => rw [hw] at h; simp at h
                | ok r =>
                  obtain ⟨kvs', bs2⟩ := r
                  rw [hw] at h
                  simp only [ok_bind, Except.ok.injEq, Prod.mk.injEq] at h
                  obtain ⟨h1, h2⟩ := h
                  subst h1; subst h2
                  obtain ⟨b', mid, hpre, hb11⟩ := ihA (b :: tl) v bs1 ha
                  have hb' : b' = b ∧ tl = mid ++ bs1 := by
                    rw [List.cons_append] at hpre
                    exact ⟨(List.cons.injEq _ _ _ _ ▸ hpre).1.symm, by
                      injection hpre with hh htl⟩
                  obtain ⟨hbb, htl⟩ := hb'
                  subst hbb
                  obtain ⟨cells, hlen, hjoin, hne, hcount⟩ := ihW ks bs1 kvs' _ hw
                  refine ⟨(b' :: mid) :: cells, by simp [hlen], ?_, ?_, ?_⟩
                  · simp [htl, hjoin]
                  · intro c hc
                    rcases List.mem_cons.mp hc with hc | hc
                    · simp [hc]
                    · exact hne c hc
                  · simp only [olen, List.countP_cons]
                    rw [hcount]
                    have : decide ((b' :: mid).head? ≠ some 12) = true := by
                      simp only [List.head?, decide_eq_true_eq]
                      intro hc
                      injection hc with hc2
                      omega
                    rw [this]
                    simp

/-- Witness for C1 at the concrete value `{"a": 300}`. -/
theorem roundtrip_to_vec_from_slice_witness :
    ∃ bs, to_vec (.vobject (.ocons [97] (.vint 300) .onil)) = .ok bs ∧
      ∀ f, sizeV (.vobject (.ocons [97] (.vint 300) .onil)) ≤ f →
        from_slice f bs = .ok (.vobject (.ocons [97] (.vint 300) .onil)) :=
  roundtrip_to_vec_from_slice (.vobject (.ocons [97] (.vint 300) .onil)) (by decide)

/-- C2: minimum-width integer selection.  For every `i64` input, the
emitted encoding is the Int8 tag with a 1-byte payload exactly when the
value fits `i8`; otherwise the Int16 tag with a 2-byte payload exactly when
it fits `i16`; otherwise the Int32 tag with a 4-byte payload exactly when
it fits `i32`; otherwise the Int64 tag with an 8-byte payload.  (Payload
widths are visible in `intToLE w v`, whose length is `w` by
`intToLE_length`.) -/
theorem serialize_int_minimum_width (v : Int) (hlo : -(2 ^ 63) ≤ v) (hhi : v < 2 ^ 63) :
    ((serialize_int v = Tag.int8.toByte :: intToLE 1 v) ↔ (-128 ≤ v ∧ v ≤ 127)) ∧
    (¬(-128 ≤ v ∧ v ≤ 127) →
      ((serialize_int v = Tag.int16.toByte :: intToLE 2 v) ↔ (-32768 ≤ v ∧ v ≤ 32767))) ∧
    (¬(-128 ≤ v ∧ v ≤ 127) → ¬(-32768 ≤ v ∧ v ≤ 32767) →
      ((serialize_int v = Tag.int32.toByte :: intToLE 4 v) ↔
        (-(2 ^ 31) ≤ v ∧ v ≤ 2 ^ 31 - 1))) ∧
    (¬(-128 ≤ v ∧ v ≤ 127) → ¬(-32768 ≤ v ∧ v ≤ 32767) → ¬(-(2 ^ 31) ≤ v ∧ v ≤ 2 ^ 31 - 1) →
      serialize_int v = Tag.int64.toByte :: intToLE 8 v) := by
  unfold serialize_int
  split_ifs with h8 h16 h32 <;>
    simp_all [Tag.toByte]

/-- Witness for C2 at the concrete input 300 (Int16 territory). -/
theorem serialize_int_minimum_width_witness :
    ((serialize_int 300 = Tag.int8.toByte :: intToLE 1 300) ↔
      (-128 ≤ (300 : Int) ∧ (300 : Int) ≤ 127)) ∧
    (¬(-128 ≤ (300 : Int) ∧ (300 : Int) ≤ 127) →
      ((serialize_int 300 = Tag.int16.toByte :: intToLE 2 300) ↔
        (-32768 ≤ (300 : Int) ∧ (300 : Int) ≤ 32767))) ∧
    (¬(-128 ≤ (300 : Int) ∧ (300 : Int) ≤ 127) →
      ¬(-32768 ≤ (300 : Int) ∧ (300 : Int) ≤ 32767) →
      ((serialize_int 300 = Tag.int32.toByte :: intToLE 4 300) ↔
        (-(2 ^ 31) ≤ (300 : Int) ∧ (300 : Int) ≤ 2 ^ 31 - 1))) ∧
    (¬(-128 ≤ (300 : Int) ∧ (300 : Int) ≤ 127) →
      ¬(-32768 ≤ (300 : Int) ∧ (300 : Int) ≤ 32767) →
      ¬(-(2 ^ 31) ≤ (300 : Int) ∧ (300 : Int) ≤ 2 ^ 31 - 1) →
      serialize_int 300 = Tag.int64.toByte :: intToLE 8 300) :=
  serialize_int_minimum_width 300 (by norm_num) (by norm_num)

/-- C3: templated expansion.  First: decoding the concrete scenario-D byte
sequence (keys `["a","b"]`, two rows, row 1 omitting `"b"` via a Missing
cell) yields exactly `[{a:1, b:2}, {a:3}]`.  Second: for every templated
row over `K` captured keys, a successful row decode consumes exactly `K`
cells from the source — one per key — where a Missing cell is the single
byte 0x0c and contributes no entry to that row's map, and every other cell
is a decoded value contributing exactly one entry. -/
theorem templated_expansion :
    (deserialize_any 20
        [0x0b, 0x00, 0x03, 0x02, 0x02, 0x03, 0x01, 0x61, 0x02, 0x03, 0x01, 0x62,
         0x03, 0x02, 0x03, 0x01, 0x03, 0x02, 0x03, 0x03, 0x0c] =
      .ok (.varray (.cons
          (.vobject (.ocons [0x61] (.vint 1) (.ocons [0x62] (.vint 2) .onil)))
          (.cons (.vobject (.ocons [0x61] (.vint 3) .onil)) .nil)), [])) ∧
    (∀ (f : Nat) (keys : List (List Nat)) (bs : List Nat) (kvs : OList) (rest : List Nat),
      templated_row f keys bs = .ok (kvs, rest) →
      ∃ cells : List (List Nat),
        cells.length = keys.length ∧
        bs = cells.flatten ++ rest ∧
        (∀ c ∈ cells, c ≠ []) ∧
        olen kvs = cells.countP (fun c => decide (c.head? ≠ some 12))) := by
  constructor
  · decide
  · intro f keys bs kvs rest h
    exact (decode_consumes f).2.2.2.2.2 keys bs kvs rest h

/-- Witness for C3's quantified part on the one-key row `[0x0c]` (a single
Missing cell). -/
theorem templated_expansion_witness :
    ∃ cells : List (List Nat),
      cells.length = ([[0x61]] : List (List Nat)).length ∧
      ([0x0c] : List Nat) = cells.flatten ++ [] ∧
      (∀ c ∈ cells, c ≠ []) ∧
      olen .onil = cells.countP (fun c => decide (c.head? ≠ some 12)) :=
  templated_expansion.2 2 [[0x61]] [0x0c] .onil [] (by decide)

/-- C4 (counterexample): decoding a String whose length prefix is the
negative integer −1 (bytes `02 03 FF`) fails, but with `Error::Message`
(serde's `invalid_value` routed through `de::Error::custom`), not with
`Error::IntegerOverflow` as the claim states. -/
theorem negative_length_error_kind_counterexample :
    from_slice 2 [0x02, 0x03, 0xFF] = .error .message ∧
    (Err.message ≠ Err.integerOverflow) := by
  constructor
  · decide
  · decide

/-- C4 (amended): a length prefix is decoded as a signed integer; a
negative value makes decoding fail — with the `Message` error kind (serde's
`invalid_value` through this crate's `de::Error::custom`), not
`IntegerOverflow` — while every nonnegative value is returned as the
length (on the modelled 64-bit platform every nonnegative `i64` fits
`usize`, so no upper-bound failure exists). -/
theorem read_usize_negative_length_message (bs bs1 r : List Nat) (t : Tag) (w : Nat) (i : Int)
    (hrt : read_tag bs = .ok (t, bs1))
    (hw : (t = .int8 ∧ w = 1) ∨ (t = .int16 ∧ w = 2) ∨
          (t = .int32 ∧ w = 4) ∨ (t = .int64 ∧ w = 8))
    (hs : read_signed w bs1 = .ok (i, r)) :
    (i < 0 → read_usize bs = .error .message) ∧
    (0 ≤ i → read_usize bs = .ok (i.toNat, r)) := by
  unfold read_usize
  rw [hrt]
  simp only [ok_bind]
  rcases hw with ⟨ht, hww⟩ | ⟨ht, hww⟩ | ⟨ht, hww⟩ | ⟨ht, hww⟩ <;> subst ht <;> subst hww <;>
    refine ⟨?_, ?_⟩ <;> intro hi
  all_goals (
    dsimp only
    rw [hs]
    simp only [ok_bind]
    first
      | rw [if_pos hi]
      | rw [if_neg (by omega)])

/-- Witness for C4's amended claim at the concrete length bytes `03 FF`
(the Int8 value −1). -/
theorem read_usize_negative_length_message_witness :
    (((-1 : Int) < 0) → read_usize [0x03, 0xFF] = .error .message) ∧
    ((0 : Int) ≤ -1 → read_usize [0x03, 0xFF] = .ok ((-1 : Int).toNat, [])) :=
  read_usize_negative_length_message [0x03, 0xFF] [0xFF] [] .int8 1 (-1)
    (by decide) (Or.inl ⟨rfl, rfl⟩) (by decide)

/-- A sink with per-call capacity 1 eventually accepts every byte when
driven through `write_all`'s retry loop. -/
theorem write_all_cap_one : ∀ (buf wr : List Nat), write_all ⟨wr, 1⟩ buf = .ok ⟨wr ++ buf, 1⟩ := by
  intro buf
  induction buf with
  | nil =>
    intro wr
    unfold write_all
    simp
  | cons b tl ih =>
    intro wr
    unfold write_all
    have hmin : min ((b :: tl).length) 1 = 1 := by
      simp only [List.length_cons]
      omega
    have h1 : wwrite ⟨wr, 1⟩ (b :: tl) = (1, ⟨wr ++ [b], 1⟩) := by
      simp [wwrite, hmin]
    rw [h1]
    simp only [List.drop_succ_cons, List.drop_zero]
    rw [dif_neg (show b :: tl ≠ [] by simp), dif_neg (show (1 : Nat) ≠ 0 by norm_num)]
    rw [ih (wr ++ [b])]
    simp

/-- C5 (code bug): `serialize_bytes` writes its payload with a single bare
`io::Write::write` call and discards the accepted-byte count.  Against a
sink that accepts at most one byte per call, serializing the two-byte
string `"ab"` returns `Ok` even though only `61` of the payload reached
the sink (the tag `02` and the length `03 02` went through `write_all`,
which loops): the second payload byte `62` is silently dropped instead of
surfacing as an I/O error. -/
theorem serialize_bytes_short_write_drops_payload :
    serialize_bytes_w ⟨[], 1⟩ [0x61, 0x62] = .ok ⟨[0x02, 0x03, 0x02, 0x61], 1⟩ ∧
    ([0x02, 0x03, 0x02, 0x61] : List Nat) ≠ [0x02, 0x03, 0x02, 0x61, 0x62] := by
  constructor
  · show serialize_bytes_w ⟨[], 1⟩ [0x61, 0x62] = .ok ⟨[0x02, 0x03, 0x02, 0x61], 1⟩
    unfold serialize_bytes_w serialize_usize_w serialize_int_w write_u8_w
    rw [write_all_cap_one]
    norm_num
    rw [write_all_cap_one]
    norm_num
    rw [show intToLE 1 (2 : Int) = [0x02] from rfl]
    rw [write_all_cap_one]
    norm_num [wwrite]
    exact ⟨rfl, rfl⟩
  · decide

/-- C6: after any top-level value decodes leaving unconsumed input, `end`
reports `TrailingBytes`, and both entry points — `from_slice` and
`from_reader` — therefore fail with `TrailingBytes`; equivalently, a
well-formed value followed by any nonempty extra bytes decodes and then
trips the automatic check.  Includes scenario F: `08 00` decodes `true`
and then fails with `TrailingBytes`. -/
theorem trailing_bytes_detected :
    (∀ (f : Nat) (bs : List Nat) (v : Value) (rest : List Nat),
      deserialize_any f bs = .ok (v, rest) → rest ≠ [] →
      de_end rest = .error .trailingBytes ∧
      from_slice f bs = .error .trailingBytes ∧
      from_reader f bs = .error .trailingBytes) ∧
    (∀ (f : Nat) (bs : List Nat) (v : Value) (extra : List Nat),
      deserialize_any f bs = .ok (v, []) → extra ≠ [] →
      from_slice f (bs ++ extra) = .error .trailingBytes ∧
      from_reader f (bs ++ extra) = .error .trailingBytes) ∧
    (deserialize_any 1 [0x08, 0x00] = .ok (.vbool true, [0x00]) ∧
      from_slice 1 [0x08, 0x00] = .error .trailingBytes) := by
  have main : ∀ (f : Nat) (bs : List Nat) (v : Value) (rest : List Nat),
      deserialize_any f bs = .ok (v, rest) → rest ≠ [] →
      de_end rest = .error .trailingBytes ∧
      from_slice f bs = .error .trailingBytes ∧
      from_reader f bs = .error .trailingBytes := by
    intro f bs v rest h hne
    have hend : de_end rest = .error .trailingBytes := by
      cases rest with
      | nil => exact absurd rfl hne
      | cons a tl => rfl
    refine ⟨hend, ?_, ?_⟩
    · unfold from_slice
      rw [h]
      simp [hend]
    · unfold from_reader
      rw [h]
      simp [hend]
  refine ⟨main, ?_, by decide⟩
  intro f bs v extra h hne
  have h' := (decode_extend f).1 bs v [] extra h
  simp only [List.nil_append] at h'
  exact ⟨(main f (bs ++ extra) v extra h' hne).2.1,
         (main f (bs ++ extra) v extra h' hne).2.2⟩

/-- Witness for C6 at scenario F (`08 00`). -/
theorem trailing_bytes_detected_witness :
    de_end [0x00] = .error .trailingBytes ∧
    from_slice 1 [0x08, 0x00] = .error .trailingBytes ∧
    from_reader 1 [0x08, 0x00] = .error .trailingBytes :=
  trailing_bytes_detected.1 1 [0x08, 0x00] (.vbool true) [0x00] (by decide) (by decide)

/-- C7: every first byte outside 0x00–0x0c makes the decoder fail with
`MalformedTag` when the tag is read, whatever follows; in particular the
single byte 0x0d. -/
theorem malformed_tag_rejected :
    (∀ (b : Nat) (bs : List Nat) (f : Nat), 13 ≤ b →
      deserialize_any (f + 1) (b :: bs) = .error .malformedTag ∧
      from_slice (f + 1) (b :: bs) = .error .malformedTag) ∧
    from_slice 1 [0x0d] = .error .malformedTag := by
  constructor
  · intro b bs f hb
    have hp := parse_tag_malformed b hb
    constructor
    · simp [deserialize_any, read_tag, hp]
    · simp [from_slice, deserialize_any, read_tag, hp]
  · decide

/-- Witness for C7 at the byte 0x0d followed by arbitrary content. -/
theorem malformed_tag_rejected_witness :
    deserialize_any 1 [0x0d, 0x00] = .error .malformedTag ∧
    from_slice 1 [0x0d, 0x00] = .error .malformedTag :=
  malformed_tag_rejected.1 0x0d [0x00] 0 (by decide)

/-- C8: `serialize_u64` fails with `IntegerOverflow` exactly on inputs
strictly above `i64::MAX`; everything at or below it goes through the same
signed minimum-width path (`serialize_int`) after value-preserving
widening. -/
theorem serialize_u64_overflow (v : Nat) (hv : v < 2 ^ 64) :
    (2 ^ 63 - 1 < v → serialize_u64 v = .error .integerOverflow) ∧
    (v ≤ 2 ^ 63 - 1 → serialize_u64 v = .ok (serialize_int (v : Int))) := by
  constructor
  · intro h
    unfold serialize_u64
    rw [if_pos h]
  · intro h
    unfold serialize_u64
    rw [if_neg (by omega)]

/-- Witness for C8 at `2^63` (overflow) and `5` (widened signed path). -/
theorem serialize_u64_overflow_witness :
    serialize_u64 (2 ^ 63) = .error .integerOverflow ∧
    serialize_u64 5 = .ok (serialize_int (5 : Int)) :=
  ⟨(serialize_u64_overflow (2 ^ 63) (by norm_num)).1 (by norm_num),
   (serialize_u64_overflow 5 (by norm_num)).2 (by norm_num)⟩

/-- C9: option decoding consumes a Null tag and delivers `none`; any other
peeked tag delivers `some` of the inner value decoded normally.  `None`
and `Some(None)` (and `Some(null)`) all encode to the single Null byte
0x0a, so `Some(null)` is indistinguishable from `null` on the wire and
decodes as `none`. -/
theorem option_decoding (f : Nat) (bs : List Nat) :
    (peek_tag bs = .ok Tag.null → deserialize_option f bs = .ok (none, bs.drop 1)) ∧
    (∀ t, peek_tag bs = .ok t → t ≠ Tag.null →
      deserialize_option f bs = (do
        let (v, rest) ← deserialize_any f bs
        (.ok (some v, rest) : BResult (Option Value × List Nat)))) ∧
    encW .noneW = .ok [Tag.null.toByte] ∧
    encW (.someOf .noneW) = .ok [Tag.null.toByte] ∧
    encW (.someOf (.plain .vnull)) = .ok [Tag.null.toByte] ∧
    deserialize_option f [Tag.null.toByte] = .ok (none, []) := by
  refine ⟨?_, ?_, rfl, rfl, rfl, ?_⟩
  · intro hpeek
    unfold deserialize_option
    rw [hpeek]
    simp
  · intro t hpeek ht
    unfold deserialize_option
    rw [hpeek]
    simp [ht]
  · unfold deserialize_option
    rw [show peek_tag [Tag.null.toByte] = .ok Tag.null from rfl]
    simp

/-- Witness for C9: `0a` decodes as `none`; `08` decodes as
`some true`. -/
theorem option_decoding_witness :
    deserialize_option 1 [0x0a] = .ok (none, []) ∧
    deserialize_option 1 [0x08] = .ok (some (.vbool true), []) := by
  constructor
  · exact (option_decoding 1 [0x0a]).1 (by decide)
  · rw [(option_decoding 1 [0x08]).2.1 Tag.btrue (by decide) (by decide)]
    decide

/-- C10: newtype structs and `Some` are transparent on the wire: the
serializer delegates both directly to the inner value, emitting no tag or
header of its own, so the output is byte-for-byte that of the inner
value. -/
theorem newtype_and_some_transparent :
    (∀ (name : String) (w : Wrapped), encW (.newtypeStruct name w) = encW w) ∧
    (∀ w : Wrapped, encW (.someOf w) = encW w) :=
  ⟨fun _ _ => rfl, fun _ => rfl⟩

end Bser
